import Mathlib

/-!
# udpr: a UDP relay (one listener thread, one relay worker per destination)

Shallow embedding of `src/cb.c` (the circular buffer) and `src/udpr.c`
(option processing in `main`, the listener loop, the relay-worker loop with its
enter/leave rendezvous), together with the properties established about them.

Conventions of the embedding.

* A pointer into the ring's block is the byte offset from `elems`, the start of
  the block; the block itself is the list of its blobs, blob number `i` living
  at byte offset `i * elem_size`.
* `sem_t` is its counter, a `pthread_mutex_t` is the flag "locked", a
  `pthread_barrier_t` is the number of threads currently blocked in it.
* A thread is its program counter plus its locals; one step of a thread is one
  statement that touches shared state.
-/

namespace Udpr

/-! ## `cb.h` / `cb.c`: the circular buffer -/

/-- The circular buffer structure of `cb.h`.  `elems` is the content of the
block returned by `malloc` (blob `i` at byte offset `i * elem_size`); `w_ptr`,
`r_ptr` and `l_ptr` are byte offsets from the start of that block. -/
structure cb (α : Type) where
  elems : List α
  elem_size : Nat
  num_elems : Nat
  w_ptr : Nat
  r_ptr : Nat
  l_ptr : Nat
  written : Nat
  read : Nat
deriving DecidableEq, Repr

/-- The blob index a byte offset points at. -/
def cb.slot {α : Type} (c : cb α) (ptr : Nat) : Nat := ptr / c.elem_size

/-- Function `cb_init`: the block holds `num_elems` blobs of `elem_size` bytes; `fresh`
is the (indeterminate) content `malloc` hands out.  Both cursors start at
`elems`, `l_ptr` is the address of the last blob. -/
def cb_init {α : Type} (elem_size num_elems : Nat) (fresh : α) : cb α :=
  { elems := List.replicate num_elems fresh
    elem_size := elem_size
    num_elems := num_elems
    w_ptr := 0
    r_ptr := 0
    l_ptr := (num_elems - 1) * elem_size
    written := 0
    read := 0 }

/-- Function `cb_move_wptr`: wrap to `elems` at the last blob, else advance one blob. -/
def cb_move_wptr {α : Type} (c : cb α) : cb α :=
  if c.w_ptr = c.l_ptr then { c with w_ptr := 0 }
  else { c with w_ptr := c.w_ptr + c.elem_size }

/-- Function `cb_move_rptr`: wrap to `elems` at the last blob, else advance one blob. -/
def cb_move_rptr {α : Type} (c : cb α) : cb α :=
  if c.r_ptr = c.l_ptr then { c with r_ptr := 0 }
  else { c with r_ptr := c.r_ptr + c.elem_size }

/-- Function `cb_write_elem`: advance the write pointer unless this is the first write,
copy the blob to `w_ptr`, set `written`. -/
def cb_write_elem {α : Type} (c : cb α) (elem : α) : cb α :=
  let c1 := if c.written ≠ 0 then cb_move_wptr c else c
  { c1 with elems := c1.elems.set (c1.slot c1.w_ptr) elem, written := 1 }

/-- Function `cb_read_elem`: copy the blob at `r_ptr` out; the result pairs the buffer
after the call with the blob copied (none when `r_ptr` is outside the block). -/
def cb_read_elem {α : Type} (c : cb α) : cb α × Option α :=
  (c, c.elems[c.slot c.r_ptr]?)

/-- A call on the ring made by its two users. -/
inductive CbCall (α : Type) where
  | write (elem : α)
  | move_rptr
deriving DecidableEq, Repr

/-- Apply one call. -/
def cbCall {α : Type} (c : cb α) : CbCall α → cb α
  | .write e => cb_write_elem c e
  | .move_rptr => cb_move_rptr c

/-- Apply a sequence of calls, first call first. -/
def cbCalls {α : Type} (c : cb α) (calls : List (CbCall α)) : cb α :=
  calls.foldl cbCall c

/-- The blobs written by a sequence of calls, in order. -/
def writesOf {α : Type} : List (CbCall α) → List α
  | [] => []
  | .write e :: cs => e :: writesOf cs
  | .move_rptr :: cs => writesOf cs

/-- The number of read-advances in a sequence of calls. -/
def advancesOf {α : Type} : List (CbCall α) → Nat
  | [] => 0
  | .write _ :: cs => advancesOf cs
  | .move_rptr :: cs => advancesOf cs + 1

/-- After each call, writes minus read-advances stays between `0` and `C`;
`w` and `a` count the writes and advances made before `calls`. -/
def flowOk {α : Type} (C : Nat) : Nat → Nat → List (CbCall α) → Bool
  | _, _, [] => true
  | w, a, .write _ :: cs => decide (w + 1 ≤ a + C) && flowOk C (w + 1) a cs
  | w, a, .move_rptr :: cs => decide (a + 1 ≤ w) && flowOk C w (a + 1) cs

/-! ## `udpr.c`: payloads and the listener's receive buffer -/

/-- The constant `BUFF_SIZE`. -/
def BUFF_SIZE : Nat := 570

/-- The type `struct payload`: `uint16_t size; char data[BUFF_SIZE];`. -/
structure payload where
  size : Nat
  data : List Nat
deriving DecidableEq, Repr

/-- The size `sizeof(struct payload)`: two bytes of `size`, then `data`. -/
def sizeof_payload : Nat := 2 + BUFF_SIZE

/-- The call `memcpy(dst, src, n)` on byte buffers: the first `n` bytes of `dst` become
the first `n` bytes of `src`.  (In C a length beyond either buffer is undefined
behaviour; the model then copies what the source holds.) -/
def memcpy (dst src : List Nat) (n : Nat) : List Nat := src.take n ++ dst.drop n

/-- Conversion of an `ssize_t` to `uint16_t`, as in `p.size = received`. -/
def to_uint16 (v : Int) : Nat := (v % 65536).toNat

/-- What one call of `recvfrom` does: its return value (`-1` on failure, else
the datagram length) and the bytes it places at the start of the buffer. -/
structure Recv where
  received : Int
  bytes : List Nat
deriving DecidableEq, Repr

/-- The call `recvfrom(recv_sock, recv_buff, BUFF_SIZE, ...)`: the buffer afterwards. -/
def recvfrom (recv_buff : List Nat) (r : Recv) : List Nat :=
  memcpy recv_buff r.bytes r.bytes.length

/-- Lines 300-301 of `udp_listener`: `p.size = received;
memcpy(p.data, recv_buff, p.size);`.  The result is the payload and the number
of bytes the `memcpy` is asked to copy. -/
def listener_fill (p : payload) (recv_buff : List Nat) (received : Int) : payload × Nat :=
  let size := to_uint16 received
  ({ size := size, data := memcpy p.data recv_buff size }, size)

/-- The datagram `relay_payload` hands to `sendto`: `pl->size` bytes from
`pl->data`. -/
def relay_payload (pl : payload) : List Nat := pl.data.take pl.size

/-! ## The threads -/

/-- Program points of `udp_listener`'s loop (lines 291-310). -/
inductive LPc where
  /-- At `recvfrom` (line 292). -/
  | recv
  /-- At `sem_wait(&empty_buff)` (line 302). -/
  | wait_empty
  /-- At `cb_write_elem(cbuff, &p)` (line 303). -/
  | write
  /-- At `sem_post(&full_buff)` (line 304), followed by the two `memset`s. -/
  | post
deriving DecidableEq, Repr

/-- Locals of `udp_listener`, and `net`: what the coming `recvfrom` calls
will deliver. -/
structure Listener where
  pc : LPc
  recv_buff : List Nat
  p : payload
  net : List Recv
deriving DecidableEq, Repr

/-- Program points of the loop of `relay_thread_begin` (lines 219-226), with
`enter_critical_region` and `leave_critical_region` inlined. -/
inductive WPc where
  /-- At `sem_wait(&full_buff)` (line 220). -/
  | wait_full
  /-- At `pthread_mutex_lock(&enter_mutex)` (line 221). -/
  | lock_enter
  /-- At `if (enter_count < num_threads) enter_count = enter_count + 1`
  (lines 232-233). -/
  | enter_test
  /-- At `pthread_mutex_unlock(&enter_mutex)` (line 234). -/
  | enter_unlock
  /-- At `if (enter_count != num_threads)` (line 235). -/
  | enter_check
  /-- At `sem_post(&full_buff)` (line 236). -/
  | enter_post
  /-- At `pthread_barrier_wait(&enter_barrier)` (line 240). -/
  | enter_barrier
  /-- Blocked inside the enter barrier. -/
  | enter_blocked
  /-- At `enter_count = 0` (line 241). -/
  | enter_reset
  /-- At `relay_payload(addr, r_port, c_buff->r_ptr)` (line 223). -/
  | relay
  /-- At `pthread_mutex_lock(&leave_mutex)` (line 247). -/
  | lock_leave
  /-- At `leave_count++` (line 248). -/
  | leave_inc
  /-- At `if (leave_count == num_threads) cb_move_rptr(&cbuff)` (lines 249-250). -/
  | leave_test
  /-- At `pthread_mutex_unlock(&leave_mutex)` (line 251). -/
  | leave_unlock
  /-- At `pthread_barrier_wait(&leave_barrier)` (line 253). -/
  | leave_barrier
  /-- Blocked inside the leave barrier. -/
  | leave_blocked
  /-- At `leave_count = 0` (line 254). -/
  | leave_reset
  /-- At `sem_post(&empty_buff)` (line 225). -/
  | post_empty
deriving DecidableEq, Repr

/-- The globals of `udpr.c`, the threads, and a record of what has been
observed so far: `sent` (per worker, the datagrams handed to `sendto`, oldest
first), `moves` (calls of `cb_move_rptr`), `stored` (calls of `cb_write_elem`),
`cycles` (releases of the leave barrier), `resignals` (executions of the
`sem_post(&full_buff)` of `enter_critical_region`). -/
structure State where
  cbuff : cb payload
  full_buff : Nat
  empty_buff : Nat
  enter_count : Nat
  leave_count : Nat
  enter_mutex : Bool
  leave_mutex : Bool
  enter_barrier : Nat
  leave_barrier : Nat
  listener : Listener
  workers : List WPc
  sent : List (List (List Nat))
  moves : Nat
  stored : Nat
  cycles : Nat
  resignals : Nat
deriving DecidableEq, Repr

/-- The state when the listener and the `N` relay workers reach their loops:
`sem_init(&empty_buff, 0, C)`, `sem_init(&full_buff, 0, 0)`,
`cb_init(&cbuff, sizeof(struct payload), C)` as in `main` (which has `C = 50`),
zeroed counters, unlocked mutexes, barriers of `N` with nobody waiting.  The
lines every worker runs before its loop (205-217: `enter_count = 0` and the two
`pthread_barrier_init(.., num_addresses)`) are taken to be over for all workers
before the first of them enters the loop.  `junk` stands for the indeterminate
content of the fresh block and of the listener's uninitialised locals. -/
def init (N C : Nat) (junk : payload) (net : List Recv) : State :=
  { cbuff := cb_init sizeof_payload C junk
    full_buff := 0
    empty_buff := C
    enter_count := 0
    leave_count := 0
    enter_mutex := false
    leave_mutex := false
    enter_barrier := 0
    leave_barrier := 0
    listener := { pc := .recv, recv_buff := junk.data, p := junk, net := net }
    workers := List.replicate N .wait_full
    sent := List.replicate N []
    moves := 0
    stored := 0
    cycles := 0
    resignals := 0 }

/-- One step of the listener; `none` when it is blocked. -/
def udp_listener_step (s : State) : Option State :=
  match s.listener.pc with
  | .recv =>
    match s.listener.net with
    | [] => none
    | r :: rest =>
      let buf := recvfrom s.listener.recv_buff r
      if r.received = 0 then
        some { s with listener := { s.listener with recv_buff := buf, net := rest } }
      else
        some { s with listener :=
          { pc := .wait_empty, recv_buff := buf,
            p := (listener_fill s.listener.p buf r.received).1, net := rest } }
  | .wait_empty =>
    if 0 < s.empty_buff then
      some { s with empty_buff := s.empty_buff - 1,
                    listener := { s.listener with pc := .write } }
    else none
  | .write =>
    some { s with cbuff := cb_write_elem s.cbuff s.listener.p,
                  stored := s.stored + 1,
                  listener := { s.listener with pc := .post } }
  | .post =>
    some { s with full_buff := s.full_buff + 1,
                  listener :=
                    { pc := .recv, recv_buff := List.replicate BUFF_SIZE 0,
                      p := { size := 0, data := List.replicate BUFF_SIZE 0 },
                      net := s.listener.net } }

/-- Release of a barrier: every thread blocked at `a` continues at `b`. -/
def release (a b : WPc) (l : List WPc) : List WPc :=
  l.map (fun pc => if pc = a then b else pc)

/-- One step of relay worker `w` with `num_threads = N`; `none` when it is
blocked (or there is no such worker). -/
def relay_thread_step (N : Nat) (s : State) (w : Nat) : Option State :=
  match s.workers[w]? with
  | none => none
  | some .wait_full =>
    if 0 < s.full_buff then
      some { s with full_buff := s.full_buff - 1, workers := s.workers.set w .lock_enter }
    else none
  | some .lock_enter =>
    if s.enter_mutex then none
    else some { s with enter_mutex := true, workers := s.workers.set w .enter_test }
  | some .enter_test =>
    if s.enter_count < N then
      some { s with enter_count := s.enter_count + 1, workers := s.workers.set w .enter_unlock }
    else some { s with workers := s.workers.set w .enter_barrier }
  | some .enter_unlock =>
    some { s with enter_mutex := false, workers := s.workers.set w .enter_check }
  | some .enter_check =>
    if s.enter_count ≠ N then some { s with workers := s.workers.set w .enter_post }
    else some { s with workers := s.workers.set w .enter_barrier }
  | some .enter_post =>
    some { s with full_buff := s.full_buff + 1, resignals := s.resignals + 1,
                  workers := s.workers.set w .enter_barrier }
  | some .enter_barrier =>
    if s.enter_barrier + 1 = N then
      some { s with enter_barrier := 0,
                    workers := release .enter_blocked .enter_reset
                      (s.workers.set w .enter_reset) }
    else
      some { s with enter_barrier := s.enter_barrier + 1,
                    workers := s.workers.set w .enter_blocked }
  | some .enter_blocked => none
  | some .enter_reset =>
    some { s with enter_count := 0, workers := s.workers.set w .relay }
  | some .relay =>
    match s.cbuff.elems[s.cbuff.slot s.cbuff.r_ptr]? with
    | none => none
    | some pl =>
      some { s with sent := s.sent.modify (fun l => l ++ [relay_payload pl]) w,
                    workers := s.workers.set w .lock_leave }
  | some .lock_leave =>
    if s.leave_mutex then none
    else some { s with leave_mutex := true, workers := s.workers.set w .leave_inc }
  | some .leave_inc =>
    some { s with leave_count := s.leave_count + 1, workers := s.workers.set w .leave_test }
  | some .leave_test =>
    if s.leave_count = N then
      some { s with cbuff := cb_move_rptr s.cbuff, moves := s.moves + 1,
                    workers := s.workers.set w .leave_unlock }
    else some { s with workers := s.workers.set w .leave_unlock }
  | some .leave_unlock =>
    some { s with leave_mutex := false, workers := s.workers.set w .leave_barrier }
  | some .leave_barrier =>
    if s.leave_barrier + 1 = N then
      some { s with leave_barrier := 0, cycles := s.cycles + 1,
                    workers := release .leave_blocked .leave_reset
                      (s.workers.set w .leave_reset) }
    else
      some { s with leave_barrier := s.leave_barrier + 1,
                    workers := s.workers.set w .leave_blocked }
  | some .leave_blocked => none
  | some .leave_reset =>
    some { s with leave_count := 0, workers := s.workers.set w .post_empty }
  | some .post_empty =>
    some { s with empty_buff := s.empty_buff + 1, workers := s.workers.set w .wait_full }

/-- The threads of the process. -/
inductive Tid where
  | listener
  | relay (w : Nat)
deriving DecidableEq, Repr

/-- One step of thread `t`. -/
def step (N : Nat) (s : State) : Tid → Option State
  | .listener => udp_listener_step s
  | .relay w => relay_thread_step N s w

/-- Run a schedule (the threads in the order they take their steps); `none`
when the schedule picks a thread that cannot move. -/
def run (N : Nat) (s : State) : List Tid → Option State
  | [] => some s
  | t :: ts =>
    match step N s t with
    | none => none
    | some s1 => run N s1 ts

/-- A state is reachable when some schedule leads to it from the initial
state. -/
def Reachable (N C : Nat) (junk : payload) (net : List Recv) (s : State) : Prop :=
  ∃ sched : List Tid, run N (init N C junk net) sched = some s

/-! ## `main`: option processing and start-up -/

/-- The size `sizeof(struct in_addr)`. -/
def sizeof_in_addr : Nat := 4

/-- One option as `getopt(argc, argv, "i:p:")` delivers it, with what the
library calls made on its argument return: for `-p` the value `atoi(optarg)`;
for `-i` the result of `inet_pton(AF_INET, optarg, ..)` (`1` for a valid IPv4
address, `0` for an invalid one) and the address `inet_aton` stores; `other` is
an option the `switch` has no case for. -/
inductive Opt where
  | p (atoi : Int)
  | i (pton : Int) (addr : Nat)
  | other
deriving DecidableEq, Repr

/-- Function `is_valid_ip`: `return result != 0;` on the result of `inet_pton`. -/
def is_valid_ip (pton : Int) : Int := if pton ≠ 0 then 1 else 0

/-- The type `struct relay_info`, as filled in for one worker. -/
structure relay_info where
  num_addresses : Nat
  port : Nat
  addr : Nat
deriving DecidableEq, Repr

/-- What the process does that is visible from outside, in order. -/
inductive Event where
  | free_ip_addr
  | cb_destroy
  | print_usage
  | exit (status : Int)
  | pthread_create (ri : relay_info)
  | udp_listener (port : Int)
deriving DecidableEq, Repr

/-- A store of one `struct in_addr` through `inet_aton`: the byte offset from
`ip_addr` it goes to and the size in bytes of the block `ip_addr` points to at
that moment. -/
structure Store where
  offset : Nat
  block_size : Nat
deriving DecidableEq, Repr

/-- The locals of `main` during the option loop.  `ip_addr` is the size in
bytes of the block it points to (`none` for `NULL`); `mem` is what has been
stored at `ip_addr + offset` (latest first), also when the offset lies past the
block; `stores` logs every store (latest first). -/
structure MainState where
  i_flag : Int
  p_flag : Int
  lp_port : Int
  i_index : Nat
  ip_addr : Option Nat
  mem : List (Nat × Nat)
  stores : List Store
deriving DecidableEq, Repr

/-- Function `print_usage`: the usage text, then `exit(0)`. -/
def print_usage : List Event := [.print_usage, .exit 0]

/-- The locals at the top of `main` (line 95: `i_index = p_flag = i_index = opt
= 0; ip_addr = NULL`).  `i_flag` and `lp_port` are not initialised there; their
indeterminate values are the two arguments. -/
def main_init (i_flag0 lp_port0 : Int) : MainState :=
  { i_flag := i_flag0, p_flag := 0, lp_port := lp_port0, i_index := 0,
    ip_addr := none, mem := [], stores := [] }

/-- The body of the `switch` for one option (lines 106-142): either the events
of a path that ends the process, or the locals after the option. -/
def process_opt (m : MainState) : Opt → Except (List Event) MainState
  | .p v =>
    if m.p_flag ≠ 0 then .ok m
    else .ok { m with lp_port := v, p_flag := 1 }
  | .i pton addr =>
    if is_valid_ip pton ≤ 0 then
      .error ([Event.free_ip_addr, Event.cb_destroy] ++ print_usage)
    else
      let m1 := { m with i_flag := 1 }
      if m1.i_index = 0 then
        .ok { m1 with ip_addr := some sizeof_in_addr,
                      mem := (0, addr) :: m1.mem,
                      stores := { offset := 0, block_size := sizeof_in_addr } :: m1.stores,
                      i_index := m1.i_index + 1 }
      else
        let size := sizeof_in_addr * m1.i_index
        let next_addr := sizeof_in_addr * m1.i_index
        .ok { m1 with ip_addr := some size,
                      mem := (next_addr, addr) :: m1.mem,
                      stores := { offset := next_addr, block_size := size } :: m1.stores,
                      i_index := m1.i_index + 1 }
  | .other => .ok m

/-- The `while ((opt = getopt(..)) != -1)` loop (lines 105-143). -/
def process_opts (m : MainState) : List Opt → Except (List Event) MainState
  | [] => .ok m
  | o :: os =>
    match process_opt m o with
    | .error ev => .error ev
    | .ok m1 => process_opts m1 os

/-- The read `*(struct in_addr *)(ip_addr + sizeof(struct in_addr) * i)` (line 171). -/
def read_addr (m : MainState) (i : Nat) : Nat :=
  ((m.mem.find? (fun c => c.1 = sizeof_in_addr * i)).map (fun c => c.2)).getD 0

/-- The thread-creation loop (lines 166-173). -/
def create_threads (m : MainState) : List Event :=
  (List.range m.i_index).map (fun i =>
    Event.pthread_create
      { num_addresses := m.i_index % 65536
        port := to_uint16 m.lp_port
        addr := read_addr m i })

/-- Function `main` up to the call of `udp_listener` (or to `exit`): the events in
order. -/
def main (i_flag0 lp_port0 : Int) (opts : List Opt) : List Event :=
  match process_opts (main_init i_flag0 lp_port0) opts with
  | .error ev => ev
  | .ok m =>
    if ¬ (m.i_flag ≠ 0 ∧ m.p_flag ≠ 0) then [Event.cb_destroy] ++ print_usage
    else if m.lp_port ≤ 0 ∨ m.lp_port ≥ 65535 then [Event.cb_destroy] ++ print_usage
    else create_threads m ++ [Event.udp_listener m.lp_port]

/-- A relay worker has been created, or the listener has been entered (it
opens its socket first thing). -/
def Event.starts_relaying : Event → Bool
  | .pthread_create _ => true
  | .udp_listener _ => true
  | _ => false

/-- The first `-p` of the option list. -/
def first_port (opts : List Opt) : Option Opt :=
  opts.find? (fun o => match o with | .p _ => true | _ => false)

/-- The start-up configurations whose error does not depend on the
uninitialised `i_flag`: no `-p` option, a `-i` argument that is not a valid
IPv4 address, or a port (the first `-p`) outside `1..65534`. -/
def config_error (opts : List Opt) : Bool :=
  opts.all (fun o => match o with | .p _ => false | _ => true)
  || opts.any (fun o => match o with | .i pton _ => decide (pton = 0) | _ => false)
  || (match first_port opts with
      | some (.p v) => decide (v ≤ 0 ∨ v ≥ 65535)
      | _ => false)

/-! ## Concrete inputs used in the worked executions -/

/-- A one-byte datagram carrying the byte `b`. -/
def dg (b : Nat) : Recv := { received := 1, bytes := [b] }

/-- A zeroed payload. -/
def zero_payload : payload := { size := 0, data := List.replicate BUFF_SIZE 0 }

/-- The thread `t` taking `n` steps in a row. -/
def rep (n : Nat) (t : Tid) : List Tid := List.replicate n t

/-- Two workers run one full cycle one after the other: worker 0 enters (and
re-signals), worker 1 enters and releases the enter barrier, each relays and
leaves, each resets `leave_count` and posts `empty_buff`. -/
def cycle2 : List Tid :=
  rep 7 (.relay 0) ++ rep 6 (.relay 1) ++ rep 7 (.relay 0) ++ rep 7 (.relay 1)
    ++ rep 2 (.relay 0) ++ rep 2 (.relay 1)

/-- The listener stores 50 datagrams; the two workers run one cycle; the
listener stores two more; the workers relay once more. -/
def sched_overwrite : List Tid :=
  rep 200 .listener ++ cycle2 ++ rep 8 .listener
    ++ rep 7 (.relay 0) ++ rep 6 (.relay 1) ++ rep 7 (.relay 0) ++ rep 7 (.relay 1)

/-- The listener stores one datagram, then the two workers run one cycle. -/
def sched_overpost : List Tid := rep 4 .listener ++ cycle2

/-- The listener stores two datagrams; both workers pass `sem_wait`, the test
and the unlock before either reaches the check of line 235; then both finish
the cycle. -/
def sched_lost_token : List Tid :=
  rep 8 .listener ++ rep 4 (.relay 0) ++ rep 4 (.relay 1) ++ rep 2 (.relay 0) ++ rep 2 (.relay 1)
    ++ rep 7 (.relay 0) ++ rep 7 (.relay 1) ++ rep 2 (.relay 0) ++ rep 2 (.relay 1)

/-- The state a schedule leads to from `s` (`s` itself when the schedule
cannot be run). -/
def after (N : Nat) (s : State) (sched : List Tid) : State :=
  (run N s sched).getD s

/-! ## Invariants -/

/-- The state of the ring after `n` writes (the blobs `ws`) and `a` advances. -/
structure RingInv {α : Type} (C es : Nat) (c : cb α) (n a : Nat) (ws : List α) : Prop where
  hes : c.elem_size = es
  hnum : c.num_elems = C
  hl : c.l_ptr = (C - 1) * es
  hlen : c.elems.length = C
  hws : ws.length = n
  hr : c.r_ptr = (a % C) * es
  hw0 : n = 0 → c.written = 0 ∧ c.w_ptr = 0
  hw1 : 0 < n → c.written = 1 ∧ c.w_ptr = ((n - 1) % C) * es
  hdata : ∀ i, i < n → n ≤ i + C → c.elems[i % C]? = ws[i]?

/-- Whether a worker at this program point has already called `relay_payload`
in the cycle it is in (`1`) or not (`0`). -/
def relayed : WPc → Nat
  | .lock_leave | .leave_inc | .leave_test | .leave_unlock | .leave_barrier | .leave_blocked => 1
  | _ => 0

/-- Program points after `leave_count++` and before the leave barrier opens. -/
def has_incremented : WPc → Bool
  | .leave_test | .leave_unlock | .leave_barrier | .leave_blocked => true
  | _ => false

/-- Program points past the test of line 249 and before the leave barrier
opens. -/
def passed_test : WPc → Bool
  | .leave_unlock | .leave_barrier | .leave_blocked => true
  | _ => false

/-- Program points between the release of the enter barrier and the release of
the leave barrier. -/
def in_region : WPc → Bool
  | .enter_reset | .relay | .lock_leave | .leave_inc | .leave_test | .leave_unlock
  | .leave_barrier | .leave_blocked => true
  | _ => false

/-- The number of workers between the two barriers. -/
def inside (l : List WPc) : Nat :=
  l.count .enter_reset + l.count .relay + l.count .lock_leave + l.count .leave_inc
    + l.count .leave_test + l.count .leave_unlock + l.count .leave_barrier
    + l.count .leave_blocked

/-- The invariant of the rendezvous: all workers are on the same side of the
barriers; the barrier counters count the blocked workers; `leave_mutex` is held
by the one worker between lock and unlock; `leave_count` counts the workers that
have incremented it in this cycle; `moves` is one ahead of `cycles` exactly when
every worker is past the test of line 249; every worker's log of relayed
datagrams has `cycles` entries, plus one when it has relayed in this cycle. -/
structure LInv (N : Nat) (s : State) : Prop where
  hlen : s.workers.length = N
  hsent : s.sent.length = N
  hseg : inside s.workers = 0 ∨ inside s.workers = N
  heb : s.enter_barrier = s.workers.count .enter_blocked
  hlb : s.leave_barrier = s.workers.count .leave_blocked
  hmx : s.workers.count .leave_inc + s.workers.count .leave_test
          + s.workers.count .leave_unlock = s.leave_mutex.toNat
  hlcA : inside s.workers = N → s.leave_count = s.workers.count .leave_test
          + s.workers.count .leave_unlock + s.workers.count .leave_barrier
          + s.workers.count .leave_blocked
  hlcB : inside s.workers = 0 → s.leave_count = 0 ∨ s.workers.count .leave_reset = N
  hmv1 : s.workers.count .leave_unlock + s.workers.count .leave_barrier
          + s.workers.count .leave_blocked = N → s.moves = s.cycles + 1
  hmv2 : s.workers.count .leave_unlock + s.workers.count .leave_barrier
          + s.workers.count .leave_blocked ≠ N → s.moves = s.cycles
  hrel : ∀ (v : Nat) (pc : WPc), s.workers[v]? = some pc →
          ∃ l : List (List Nat), s.sent[v]? = some l ∧ l.length = s.cycles + relayed pc

/-- Whether the listener has passed `sem_wait(&empty_buff)` and not yet called
`cb_write_elem` (`1`) or not (`0`). -/
def writing : LPc → Nat
  | .write => 1
  | _ => 0

/-- The flow invariant: the ring is in the state reached by `stored` writes and
`moves` read-advances; and as long as no cycle has completed, no worker has
come to post `empty_buff`, so the tokens taken from `empty_buff` are exactly
the writes made or under way. -/
structure FInv (C : Nat) (s : State) : Prop where
  hring : ∃ ws : List payload, RingInv C sizeof_payload s.cbuff s.stored s.moves ws
  hflow : s.cycles = 0 → s.empty_buff + s.stored + writing s.listener.pc = C
  hnone : s.cycles = 0 → s.workers.count .leave_reset + s.workers.count .post_empty = 0

/-! ## The capacity scenario: schedules and the states they lead to -/

/-- The payload the listener stores for datagram number `i` (from `0`) of
`net`: on the first iteration its locals still hold their indeterminate initial
content `junk`, afterwards they have been zeroed by the two `memset`s. -/
def fill_nth (junk : payload) (net : List Recv) (i : Nat) : payload :=
  match net[i]? with
  | none => zero_payload
  | some r =>
    if i = 0 then (listener_fill junk (recvfrom junk.data r) r.received).1
    else (listener_fill zero_payload (recvfrom (List.replicate BUFF_SIZE 0) r) r.received).1

/-- The state after the listener has run `k` full iterations on non-empty
datagrams and no worker has moved. -/
def filled (N C : Nat) (junk : payload) (net : List Recv) (k : Nat) : State :=
  { cbuff := cbCalls (cb_init sizeof_payload C junk)
      ((List.range k).map (fun i => CbCall.write (fill_nth junk net i)))
    full_buff := k
    empty_buff := C - k
    enter_count := 0
    leave_count := 0
    enter_mutex := false
    leave_mutex := false
    enter_barrier := 0
    leave_barrier := 0
    listener :=
      { pc := .recv
        recv_buff := if k = 0 then junk.data else List.replicate BUFF_SIZE 0
        p := if k = 0 then junk else zero_payload
        net := net.drop k }
    workers := List.replicate N .wait_full
    sent := List.replicate N []
    moves := 0
    stored := k
    cycles := 0
    resignals := 0 }

/-- Workers `i, i+1, .., i+m` pass `enter_critical_region` one after the other:
each but the last takes seven steps (`sem_wait`, lock, test, unlock, check,
re-signal, barrier), the last one six (no re-signal). -/
def enter_sched : Nat → Nat → List Tid
  | i, 0 => rep 6 (.relay i)
  | i, m + 1 => rep 7 (.relay i) ++ enter_sched (i + 1) m

/-- Workers `i, .., i+m` one after the other each reset `enter_count`, relay,
and pass `leave_critical_region` up to the leave barrier (seven steps). -/
def leave_sched : Nat → Nat → List Tid
  | i, 0 => rep 7 (.relay i)
  | i, m + 1 => rep 7 (.relay i) ++ leave_sched (i + 1) m

/-- Workers `i, .., i+m-1` one after the other reset `leave_count` and post
`empty_buff`. -/
def post_sched : Nat → Nat → List Tid
  | _, 0 => []
  | i, m + 1 => rep 2 (.relay i) ++ post_sched (i + 1) m

/-- One full cycle of `N` workers run one after the other. -/
def cycle_sched (N : Nat) : List Tid :=
  enter_sched 0 (N - 1) ++ leave_sched 0 (N - 1) ++ post_sched 0 N

/-- Datagram number `i` of `net` (an empty one when there is none). -/
def nth_recv (net : List Recv) (i : Nat) : Recv :=
  (net[i]?).getD { received := 0, bytes := [] }

/-- The state after the listener has stored `C` payloads and received one
more: it is at `sem_wait(&empty_buff)` holding payload number `C`. -/
def pending (N C : Nat) (junk : payload) (net : List Recv) : State :=
  { filled N C junk net C with
    listener :=
      { pc := .wait_empty
        recv_buff :=
          recvfrom (if C = 0 then junk.data else List.replicate BUFF_SIZE 0) (nth_recv net C)
        p := fill_nth junk net C
        net := net.drop (C + 1) } }

/-- From `pending`, all `N` workers have passed the enter barrier. -/
def entered (N C : Nat) (junk : payload) (net : List Recv) : State :=
  { pending N C junk net with
    full_buff := C - 1
    enter_count := N
    resignals := N - 1
    workers := List.replicate N .enter_reset }

/-- From `entered`, all `N` workers have relayed slot 0 and passed the leave
barrier; the last of them has advanced the read pointer. -/
def left (N C : Nat) (junk : payload) (net : List Recv) : State :=
  { entered N C junk net with
    cbuff := cb_move_rptr (filled N C junk net C).cbuff
    enter_count := 0
    leave_count := N
    moves := 1
    cycles := 1
    sent := List.replicate N [relay_payload (fill_nth junk net 0)]
    workers := List.replicate N .leave_reset }

/-- From `left`, all `N` workers have posted `empty_buff` and are back at
`sem_wait(&full_buff)`: the first cycle is complete. -/
def cycled (N C : Nat) (junk : payload) (net : List Recv) : State :=
  { left N C junk net with
    leave_count := 0
    empty_buff := N
    workers := List.replicate N .wait_full }

/-- From `cycled`, the listener has passed `sem_wait(&empty_buff)` and stored
payload number `C`. -/
def resumed (N C : Nat) (junk : payload) (net : List Recv) : State :=
  { cycled N C junk net with
    cbuff := cb_write_elem (cb_move_rptr (filled N C junk net C).cbuff) (fill_nth junk net C)
    empty_buff := N - 1
    stored := C + 1
    listener := { (pending N C junk net).listener with pc := .post } }

set_option maxRecDepth 8000
set_option maxHeartbeats 4000000

/-! ## Ring buffer: sequential correctness -/

/-- Stepping a residue: `(m + 1) % C` from `m % C`. -/
theorem succ_mod_step (m C : Nat) (hC : 0 < C) :
    (m + 1) % C = if m % C + 1 = C then 0 else m % C + 1 := by
  have hlt : m % C < C := Nat.mod_lt _ hC
  have hdm : C * (m / C) + m % C = m := Nat.div_add_mod m C
  split
  · next h =>
    have : m + 1 = C * (m / C + 1) := by rw [Nat.mul_add, Nat.mul_one]; omega
    rw [this, Nat.mul_mod_right]
  · next h =>
    have h1 : m + 1 = C * (m / C) + (m % C + 1) := by omega
    have h2 : m % C + 1 < C := by omega
    rw [h1, Nat.mul_add_mod, Nat.mod_eq_of_lt h2]

/-- Two positions less than `C` apart lie in different slots. -/
theorem mod_ne_of_close (i n C : Nat) (h1 : i < n) (h2 : n < i + C) : i % C ≠ n % C := by
  intro h
  have h3 : (n - i) % C = 0 := Nat.sub_mod_eq_zero_of_mod_eq h.symm
  have h4 : (n - i) % C = n - i := Nat.mod_eq_of_lt (by omega)
  omega

theorem ringInv_init {α : Type} (C es : Nat) (fresh : α) :
    RingInv C es (cb_init es C fresh) 0 0 [] := by
  refine ⟨rfl, rfl, rfl, by simp [cb_init], rfl, by simp [cb_init], ?_, ?_, ?_⟩
  · intro _; exact ⟨rfl, rfl⟩
  · intro h; omega
  · intro i h; omega

theorem mul_right_cancel_pos (a b es : Nat) (hes : 0 < es) (h : a * es = b * es) : a = b :=
  Nat.eq_of_mul_eq_mul_right hes h

theorem ringInv_move_rptr {α : Type} (C es : Nat) (hC : 0 < C) (hes : 0 < es)
    (c : cb α) (n a : Nat) (ws : List α) (h : RingInv C es c n a ws) :
    RingInv C es (cb_move_rptr c) n (a + 1) ws := by
  have hlt : a % C < C := Nat.mod_lt _ hC
  have hs := succ_mod_step a C hC
  unfold cb_move_rptr
  split
  · next heq =>
    rw [h.hr, h.hl] at heq
    have := mul_right_cancel_pos _ _ es hes heq
    refine ⟨h.hes, h.hnum, h.hl, h.hlen, h.hws, ?_, h.hw0, h.hw1, h.hdata⟩
    rw [hs, if_pos (by omega)]; simp
  · next hne =>
    rw [h.hr, h.hl] at hne
    have hne2 : a % C + 1 ≠ C := by
      intro hh; apply hne; congr 1; omega
    refine ⟨h.hes, h.hnum, h.hl, h.hlen, h.hws, ?_, h.hw0, h.hw1, h.hdata⟩
    show c.r_ptr + c.elem_size = _
    rw [hs, if_neg hne2, h.hr, h.hes, Nat.add_mul, Nat.one_mul]

/-- The write pointer after the `(n+1)`-th write. -/
theorem ringInv_wptr_next {α : Type} (C es : Nat) (hC : 0 < C) (hes : 0 < es)
    (c : cb α) (n a : Nat) (ws : List α) (h : RingInv C es c n a ws) :
    (if c.written ≠ 0 then cb_move_wptr c else c).w_ptr = (n % C) * es
    ∧ (if c.written ≠ 0 then cb_move_wptr c else c).elems = c.elems
    ∧ (if c.written ≠ 0 then cb_move_wptr c else c).elem_size = es
    ∧ (if c.written ≠ 0 then cb_move_wptr c else c).num_elems = C
    ∧ (if c.written ≠ 0 then cb_move_wptr c else c).l_ptr = (C - 1) * es
    ∧ (if c.written ≠ 0 then cb_move_wptr c else c).r_ptr = c.r_ptr := by
  rcases Nat.eq_zero_or_pos n with h0 | hpos
  · have := h.hw0 h0
    rw [if_neg (by simp [this.1])]
    subst h0
    exact ⟨by simp [this.2], rfl, h.hes, h.hnum, h.hl, rfl⟩
  · have hw := h.hw1 hpos
    rw [if_pos (by simp [hw.1])]
    have hlt : (n - 1) % C < C := Nat.mod_lt _ hC
    have hs := succ_mod_step (n - 1) C hC
    have hn : n - 1 + 1 = n := by omega
    rw [hn] at hs
    unfold cb_move_wptr
    split
    · next heq =>
      rw [hw.2, h.hl] at heq
      have := mul_right_cancel_pos _ _ es hes heq
      refine ⟨?_, rfl, h.hes, h.hnum, h.hl, rfl⟩
      rw [hs, if_pos (by omega)]; simp
    · next hne =>
      rw [hw.2, h.hl] at hne
      have hne2 : (n - 1) % C + 1 ≠ C := by
        intro hh; apply hne; congr 1; omega
      refine ⟨?_, rfl, h.hes, h.hnum, h.hl, rfl⟩
      show c.w_ptr + c.elem_size = _
      rw [hs, if_neg hne2, hw.2, h.hes, Nat.add_mul, Nat.one_mul]

theorem ringInv_write {α : Type} (C es : Nat) (hC : 0 < C) (hes : 0 < es)
    (c : cb α) (n a : Nat) (ws : List α) (e : α) (h : RingInv C es c n a ws) :
    RingInv C es (cb_write_elem c e) (n + 1) a (ws ++ [e])
    ∧ (cb_write_elem c e).w_ptr = (n % C) * es
    ∧ (cb_write_elem c e).elems[n % C]? = some e := by
  obtain ⟨h1, h2, h3, h4, h5, h6⟩ := ringInv_wptr_next C es hC hes c n a ws h
  have hlt : n % C < C := Nat.mod_lt _ hC
  have hslot : (if c.written ≠ 0 then cb_move_wptr c else c).slot
      (if c.written ≠ 0 then cb_move_wptr c else c).w_ptr = n % C := by
    unfold cb.slot
    rw [h1, h3, Nat.mul_div_cancel _ hes]
  have hel : (cb_write_elem c e).elems = c.elems.set (n % C) e := by
    unfold cb_write_elem
    simp only [hslot, h2]
  have hget : (cb_write_elem c e).elems[n % C]? = some e := by
    rw [hel, List.getElem?_set_self (by rw [h.hlen]; exact hlt)]
  refine ⟨⟨h3, h4, h5, ?_, ?_, ?_, ?_, ?_, ?_⟩, h1, hget⟩
  · rw [hel, List.length_set, h.hlen]
  · simp [h.hws]
  · show (if c.written ≠ 0 then cb_move_wptr c else c).r_ptr = _
    rw [h6, h.hr]
  · intro hh; omega
  · intro _
    refine ⟨rfl, ?_⟩
    rw [Nat.add_sub_cancel]
    exact h1
  · intro i hi hi2
    rcases Nat.lt_or_ge i n with hlt2 | hge
    · have hne : n % C ≠ i % C := fun hh => mod_ne_of_close i n C hlt2 (by omega) hh.symm
      rw [hel, List.getElem?_set_ne hne, h.hdata i hlt2 (by omega),
        List.getElem?_append_left (by rw [h.hws]; exact hlt2)]
    · have : i = n := by omega
      subst this
      rw [hget, List.getElem?_append_right (by rw [h.hws]), h.hws]
      simp

theorem flowOk_append {α : Type} (C : Nat) (xs ys : List (CbCall α)) :
    ∀ (w a : Nat), flowOk C w a (xs ++ ys) = true → flowOk C w a xs = true := by
  induction xs with
  | nil => intro w a _; rfl
  | cons x xs ih =>
    intro w a h
    cases x with
    | write e =>
      simp only [List.cons_append, flowOk, Bool.and_eq_true] at h ⊢
      exact ⟨h.1, ih _ _ h.2⟩
    | move_rptr =>
      simp only [List.cons_append, flowOk, Bool.and_eq_true] at h ⊢
      exact ⟨h.1, ih _ _ h.2⟩

theorem writesOf_append {α : Type} (xs ys : List (CbCall α)) :
    writesOf (xs ++ ys) = writesOf xs ++ writesOf ys := by
  induction xs with
  | nil => rfl
  | cons x xs ih => cases x <;> simp [writesOf, ih]

theorem advancesOf_append {α : Type} (xs ys : List (CbCall α)) :
    advancesOf (xs ++ ys) = advancesOf xs + advancesOf ys := by
  induction xs with
  | nil => simp [advancesOf]
  | cons x xs ih =>
    cases x with
    | write e => simp [advancesOf, ih]
    | move_rptr => simp [advancesOf, ih]; omega

/-- Running a flow-respecting sequence of calls keeps the ring invariant. -/
theorem ringInv_calls {α : Type} (C es : Nat) (hC : 0 < C) (hes : 0 < es)
    (calls : List (CbCall α)) :
    ∀ (c : cb α) (n a : Nat) (ws : List α), RingInv C es c n a ws → n ≤ a + C →
      flowOk C n a calls = true →
      RingInv C es (cbCalls c calls) (n + (writesOf calls).length) (a + advancesOf calls)
        (ws ++ writesOf calls)
      ∧ n + (writesOf calls).length ≤ a + advancesOf calls + C := by
  induction calls with
  | nil => intro c n a ws h hb _; simpa [cbCalls, writesOf, advancesOf] using ⟨h, hb⟩
  | cons x xs ih =>
    intro c n a ws h hb hf
    cases x with
    | write e =>
      simp only [flowOk, Bool.and_eq_true, decide_eq_true_eq] at hf
      have h1 := (ringInv_write C es hC hes c n a ws e h).1
      have h2 := ih (cb_write_elem c e) (n + 1) a (ws ++ [e]) h1 hf.1 hf.2
      simp only [writesOf, advancesOf, List.length_cons, cbCalls, List.foldl_cons, cbCall]
      simp only [cbCalls, List.append_assoc, List.singleton_append] at h2
      have e1 : n + ((writesOf xs).length + 1) = n + 1 + (writesOf xs).length := by omega
      rw [e1]
      exact h2
    | move_rptr =>
      simp only [flowOk, Bool.and_eq_true, decide_eq_true_eq] at hf
      have h1 := ringInv_move_rptr C es hC hes c n a ws h
      have h2 := ih (cb_move_rptr c) n (a + 1) ws h1 (by omega) hf.2
      simp only [writesOf, advancesOf, cbCalls, List.foldl_cons, cbCall]
      simp only [cbCalls] at h2
      have e1 : a + (advancesOf xs + 1) = a + 1 + advancesOf xs := by omega
      rw [e1]
      exact h2

/-- C2. On a freshly initialised ring of capacity `C ≥ 1`, along any sequence of
`cb_write_elem` / `cb_move_rptr` calls that keeps writes minus advances within
`0..C` after each call: the `k`-th write lands in slot `(k-1) mod C` (so the
first write leaves the write cursor where it is), and once `j` advances and more
than `j` writes have happened `cb_read_elem` yields the `(j+1)`-th written blob
and returns the buffer unchanged. -/
theorem cb_fifo_order {α : Type} (C es : Nat) (fresh : α) (calls : List (CbCall α))
    (hC : 1 ≤ C) (hes : 1 ≤ es) (hflow : flowOk C 0 0 calls = true) :
    (∀ (pre post : List (CbCall α)) (e : α), calls = pre ++ CbCall.write e :: post →
        (cbCalls (cb_init es C fresh) (pre ++ [CbCall.write e])).w_ptr
            = ((writesOf pre).length % C) * es
        ∧ (cbCalls (cb_init es C fresh) (pre ++ [CbCall.write e])).elems[(writesOf pre).length % C]?
            = some e
        ∧ (pre = [] → (cbCalls (cb_init es C fresh) (pre ++ [CbCall.write e])).w_ptr
            = (cb_init es C fresh).w_ptr))
    ∧ (advancesOf calls < (writesOf calls).length →
        cb_read_elem (cbCalls (cb_init es C fresh) calls)
          = (cbCalls (cb_init es C fresh) calls, (writesOf calls)[advancesOf calls]?)
        ∧ (writesOf calls)[advancesOf calls]?.isSome = true) := by
  constructor
  · intro pre post e hcalls
    have hpre : flowOk C 0 0 pre = true := by
      rw [hcalls] at hflow; exact flowOk_append C pre _ 0 0 hflow
    have hI := (ringInv_calls C es hC hes pre _ 0 0 [] (ringInv_init C es fresh) (by omega) hpre).1
    have hW := ringInv_write C es hC hes _ _ _ _ e hI
    have hrun : cbCalls (cb_init es C fresh) (pre ++ [CbCall.write e])
        = cb_write_elem (cbCalls (cb_init es C fresh) pre) e := by
      simp [cbCalls, List.foldl_append, cbCall]
    rw [hrun]
    simp only [Nat.zero_add] at hW
    refine ⟨hW.2.1, hW.2.2, ?_⟩
    intro hnil
    subst hnil
    simpa [writesOf, cb_init] using hW.2.1
  · intro hlt
    have hI := ringInv_calls C es hC hes calls _ 0 0 [] (ringInv_init C es fresh) (by omega) hflow
    simp only [Nat.zero_add, List.nil_append] at hI
    obtain ⟨hI, hb⟩ := hI
    have hslot : (cbCalls (cb_init es C fresh) calls).slot (cbCalls (cb_init es C fresh) calls).r_ptr
        = advancesOf calls % C := by
      unfold cb.slot
      rw [hI.hr, hI.hes, Nat.mul_div_cancel _ hes]
    refine ⟨?_, ?_⟩
    · unfold cb_read_elem
      rw [hslot, hI.hdata _ hlt hb]
    · simp [hlt]

theorem cb_fifo_order_witness :
    (1 ≤ 2 ∧ 1 ≤ 572 ∧ flowOk 2 0 0 [CbCall.write 7, CbCall.write 8, CbCall.move_rptr, CbCall.write 9] = true)
    ∧ cb_read_elem (cbCalls (cb_init 572 2 0) [CbCall.write 7, CbCall.write 8, CbCall.move_rptr, CbCall.write 9])
        = (cbCalls (cb_init 572 2 0) [CbCall.write 7, CbCall.write 8, CbCall.move_rptr, CbCall.write 9],
            some 8) := by
  refine ⟨⟨by decide, by decide, by decide⟩, ?_⟩
  have h := (cb_fifo_order 2 572 (0 : Nat) [CbCall.write 7, CbCall.write 8, CbCall.move_rptr, CbCall.write 9]
    (by decide) (by decide) (by decide)).2 (by decide)
  exact h.1
/-! ## The listener: one iteration -/

/-- C7 (the code breaks it). When `recvfrom` fails and returns `-1`, the
listener still fills and stores a payload: the `memcpy` into the 570-byte
`p.data` is asked for 65535 bytes, and the payload written into the ring has
`size = 65535`. -/
theorem listener_stores_failed_receive :
    (listener_fill zero_payload (List.replicate BUFF_SIZE 0) (-1)).2 = 65535
    ∧ BUFF_SIZE < (listener_fill zero_payload (List.replicate BUFF_SIZE 0) (-1)).2
    ∧ (run 1 (init 1 50 zero_payload [{ received := -1, bytes := [] }]) (rep 3 .listener)).map
        (fun s => (s.stored, s.cbuff.elems[0]?.map (fun pl => pl.size)))
        = some (1, some 65535) := by
  decide!

/-- C9. An iteration of the listener whose `recvfrom` returns `0` takes the
listener back to `recvfrom` and leaves every global as it was: the ring (slots,
both cursors, `written`), `empty_buff`, `full_buff`, the counters, mutexes and
barriers, the workers; only the listener's receive buffer and its pending
input change. -/
theorem zero_length_receive_is_noop (s : State) (r : Recv) (rest : List Recv)
    (hpc : s.listener.pc = LPc.recv) (hnet : s.listener.net = r :: rest)
    (hzero : r.received = 0) :
    udp_listener_step s = some { s with listener :=
      { s.listener with recv_buff := recvfrom s.listener.recv_buff r, net := rest } }
    ∧ ∀ s1, udp_listener_step s = some s1 →
        s1.cbuff = s.cbuff ∧ s1.empty_buff = s.empty_buff ∧ s1.full_buff = s.full_buff
        ∧ s1.stored = s.stored ∧ s1.listener.pc = LPc.recv ∧ s1.listener.p = s.listener.p
        ∧ { s1 with listener := s.listener } = s := by
  have h : udp_listener_step s = some { s with listener :=
      { s.listener with recv_buff := recvfrom s.listener.recv_buff r, net := rest } } := by
    unfold udp_listener_step
    rw [hpc]
    simp only [hnet, hzero, if_true]
  refine ⟨h, ?_⟩
  intro s1 h1
  rw [h] at h1
  cases h1
  exact ⟨rfl, rfl, rfl, rfl, hpc, rfl, rfl⟩

theorem zero_length_receive_is_noop_witness :
    (init 2 50 zero_payload [{ received := 0, bytes := [] }, dg 7]).listener.pc = LPc.recv
    ∧ udp_listener_step (init 2 50 zero_payload [{ received := 0, bytes := [] }, dg 7])
      = some { init 2 50 zero_payload [{ received := 0, bytes := [] }, dg 7] with listener :=
          { (init 2 50 zero_payload [{ received := 0, bytes := [] }, dg 7]).listener with
            recv_buff := recvfrom
              (init 2 50 zero_payload [{ received := 0, bytes := [] }, dg 7]).listener.recv_buff
              { received := 0, bytes := [] },
            net := [dg 7] } } :=
  ⟨rfl, (zero_length_receive_is_noop (init 2 50 zero_payload [{ received := 0, bytes := [] }, dg 7])
    { received := 0, bytes := [] } [dg 7] rfl rfl rfl).1⟩

/-! ## `main` -/

theorem process_opts_error (opts : List Opt) :
    ∀ (m : MainState) (ev : List Event), process_opts m opts = .error ev →
      ev = [Event.free_ip_addr, Event.cb_destroy, Event.print_usage, Event.exit 0] := by
  induction opts with
  | nil => intro m ev h; simp [process_opts] at h
  | cons o os ih =>
    intro m ev h
    unfold process_opts at h
    cases hpo : process_opt m o with
    | error e =>
      rw [hpo] at h
      cases o with
      | p v => simp only [process_opt] at hpo; split at hpo <;> cases hpo
      | i pton addr =>
        simp only [process_opt] at hpo
        split at hpo
        · cases hpo; cases h; rfl
        · split at hpo <;> cases hpo
      | other => simp [process_opt] at hpo
    | ok m1 =>
      rw [hpo] at h
      exact ih m1 ev h

theorem process_opts_ok (opts : List Opt) :
    ∀ (m m1 : MainState), process_opts m opts = .ok m1 →
      opts.any (fun o => match o with | .i pton _ => decide (pton = 0) | _ => false) = false
      ∧ (m.p_flag = 0 →
          (opts.all (fun o => match o with | .p _ => false | _ => true) = true → m1.p_flag = 0)
          ∧ (∀ v, first_port opts = some (.p v) → m1.lp_port = v))
      ∧ (m.p_flag ≠ 0 → m1.lp_port = m.lp_port) := by
  induction opts with
  | nil =>
    intro m m1 h
    simp only [process_opts] at h
    cases h
    simp [first_port]
  | cons o os ih =>
    intro m m1 h
    unfold process_opts at h
    cases hpo : process_opt m o with
    | error e => rw [hpo] at h; cases h
    | ok m2 =>
      rw [hpo] at h
      have hi := ih m2 m1 h
      cases o with
      | p v =>
        simp only [process_opt] at hpo
        split at hpo
        · next hp =>
          cases hpo
          refine ⟨by simpa using hi.1, fun h0 => absurd h0 hp, hi.2.2⟩
        · next hp =>
          cases hpo
          have hp0 : m.p_flag = 0 := by simpa using hp
          refine ⟨by simpa using hi.1, fun _ => ⟨by simp, ?_⟩, fun h0 => absurd hp0 h0⟩
          intro v1 hv1
          simp only [first_port, List.find?_cons] at hv1
          cases hv1
          exact hi.2.2 (by simp)
      | i pton addr =>
        simp only [process_opt] at hpo
        split at hpo
        · cases hpo
        · next hv =>
          have hpt : pton ≠ 0 := by
            intro h0; apply hv; simp [is_valid_ip, h0]
          have hfl : m2.p_flag = m.p_flag ∧ m2.lp_port = m.lp_port := by
            split at hpo <;> cases hpo <;> exact ⟨rfl, rfl⟩
          refine ⟨by simpa [hpt] using hi.1, ?_, ?_⟩
          · intro h0
            have := hi.2.1 (by rw [hfl.1]; exact h0)
            refine ⟨fun hall => this.1 (by simpa using hall), fun v1 hv1 => this.2 v1 ?_⟩
            simpa [first_port] using hv1
          · intro h0
            rw [hi.2.2 (by rw [hfl.1]; exact h0), hfl.2]
      | other =>
        simp only [process_opt] at hpo
        cases hpo
        refine ⟨by simpa using hi.1, ?_, hi.2.2⟩
        intro h0
        have := hi.2.1 h0
        refine ⟨fun hall => this.1 (by simpa using hall), fun v1 hv1 => this.2 v1 ?_⟩
        simpa [first_port] using hv1

/-- C8 as stated fails: with an address but no port the process leaves through
the usage path with exit status `0`, not a non-zero one. -/
theorem usage_exit_status_is_zero :
    config_error [Opt.i 1 3232235877] = true
    ∧ main 0 0 [Opt.i 1 3232235877] = [Event.cb_destroy, Event.print_usage, Event.exit 0]
    ∧ ¬ ∃ status, status ≠ 0 ∧ Event.exit status ∈ main 0 0 [Opt.i 1 3232235877] := by
  refine ⟨by decide, by decide, ?_⟩
  rintro ⟨st, hne, hmem⟩
  have h : main 0 0 [Opt.i 1 3232235877] = [Event.cb_destroy, Event.print_usage, Event.exit 0] := by
    decide
  rw [h] at hmem
  simp at hmem
  exact hne hmem

/-- C8, amended. Whatever the uninitialised `i_flag` and `lp_port` hold: when no
`-p` is given, or some `-i` argument is not a valid IPv4 address, or the port is
outside `1..65534`, `main` ends through `print_usage` with `exit(0)`, and no
relay worker is created and the listener is not entered. -/
theorem config_error_exits_through_usage (i_flag0 lp_port0 : Int) (opts : List Opt)
    (herr : config_error opts = true) :
    (main i_flag0 lp_port0 opts = [Event.cb_destroy, Event.print_usage, Event.exit 0]
      ∨ main i_flag0 lp_port0 opts
          = [Event.free_ip_addr, Event.cb_destroy, Event.print_usage, Event.exit 0])
    ∧ (main i_flag0 lp_port0 opts).any Event.starts_relaying = false := by
  have key : main i_flag0 lp_port0 opts = [Event.cb_destroy, Event.print_usage, Event.exit 0]
      ∨ main i_flag0 lp_port0 opts
          = [Event.free_ip_addr, Event.cb_destroy, Event.print_usage, Event.exit 0] := by
    unfold main
    cases hp : process_opts (main_init i_flag0 lp_port0) opts with
    | error ev =>
      right
      exact process_opts_error opts _ ev hp
    | ok m =>
      left
      obtain ⟨h1, h2, -⟩ := process_opts_ok opts _ m hp
      have h2 := h2 rfl
      simp only [config_error, Bool.or_eq_true] at herr
      rcases herr with (hnop | hbad) | hport
      · have := h2.1 hnop
        simp [this, print_usage]
      · rw [h1] at hbad; cases hbad
      · split at hport
        · next v hv =>
          have hlp := h2.2 v hv
          have hv2 : v ≤ 0 ∨ v ≥ 65535 := by simpa using hport
          have hv3 : m.lp_port ≤ 0 ∨ m.lp_port ≥ 65535 := by rw [hlp]; exact hv2
          show (if ¬ (m.i_flag ≠ 0 ∧ m.p_flag ≠ 0) then [Event.cb_destroy] ++ print_usage
            else if m.lp_port ≤ 0 ∨ m.lp_port ≥ 65535 then [Event.cb_destroy] ++ print_usage
            else create_threads m ++ [Event.udp_listener m.lp_port]) = _
          by_cases hfl : ¬ (m.i_flag ≠ 0 ∧ m.p_flag ≠ 0)
          · rw [if_pos hfl]; rfl
          · rw [if_neg hfl, if_pos hv3]; rfl
        · cases hport
  refine ⟨key, ?_⟩
  rcases key with h | h <;> rw [h] <;> rfl

theorem config_error_exits_through_usage_witness :
    config_error [Opt.p 70000, Opt.i 1 3232235877] = true
    ∧ (main 1 0 [Opt.p 70000, Opt.i 1 3232235877]).any Event.starts_relaying = false :=
  ⟨by decide, (config_error_exits_through_usage 1 0 [Opt.p 70000, Opt.i 1 3232235877] (by decide)).2⟩

/-- C10 (the code breaks it). For `-p 2344 -i A -i B` the second address is
stored at byte offset 4 while the block `ip_addr` points to has just been
`realloc`ed to `sizeof(struct in_addr) * i_index = 4` bytes: the store needs 8
bytes and lies wholly past the block. -/
theorem second_address_stored_past_block :
    (process_opts (main_init 0 0) [Opt.p 2344, Opt.i 1 3232235877, Opt.i 1 3232236134]).toOption.map
        (fun m => m.stores)
      = some [{ offset := 4, block_size := 4 }, { offset := 0, block_size := 4 }]
    ∧ ¬ ((1 + 1) * sizeof_in_addr ≤ 4) := by
  decide

/-! ## Worked executions of the listener and two workers -/

/-- C1 (the code breaks it). Capacity 50, two workers, one-byte datagrams
`0, 1, 2, ...`: along `sched_overwrite` both workers relay datagram `0` in their
first cycle and datagram `51` in their second; datagram `1`, the second one
received, has been overwritten in slot 1 before any worker read it. -/
theorem second_cycle_relays_wrong_payload :
    (run 2 (init 2 50 zero_payload ((List.range 60).map dg)) sched_overwrite).map
        (fun s => (s.sent, s.cycles))
      = some ([[[0], [51]], [[0], [51]]], 2) := by
  decide!

/-- C3 (the code breaks it). Two workers, capacity 50: after one datagram and
one cycle `empty_buff` is 51; and along `sched_overwrite` 52 payloads have been
stored when the read cursor has advanced once, so 51 slots are outstanding in
a ring of 50. -/
theorem empty_buff_exceeds_capacity :
    (run 2 (init 2 50 zero_payload ((List.range 60).map dg)) sched_overpost).map
        (fun s => (s.empty_buff, s.stored, s.moves))
      = some (51, 1, 1)
    ∧ (run 2 (init 2 50 zero_payload ((List.range 60).map dg))
          (rep 200 .listener ++ cycle2 ++ rep 8 .listener)).map
        (fun s => (s.stored, s.moves, s.cycles))
      = some (52, 1, 1) := by
  decide!

/-- C5 (the code breaks it). Two workers, two datagrams queued: when both
workers have incremented `enter_count` before either evaluates
`enter_count != num_threads`, neither re-signals `full_buff`; the cycle
consumes both tokens, and the second stored datagram is left with no token. -/
theorem enter_phase_loses_token :
    (run 2 (init 2 50 zero_payload [dg 0, dg 1]) sched_lost_token).map
        (fun s => (s.full_buff, s.resignals, s.cycles, s.stored))
      = some (0, 0, 1, 2)
    ∧ (run 2 (init 2 50 zero_payload [dg 0, dg 1]) sched_lost_token).map (fun s => s.sent)
      = some [[[0]], [[0]]] := by
  decide!

/-! ## The rendezvous invariant -/

theorem length_eq_counts (l : List WPc) :
    l.length = l.count .wait_full + l.count .lock_enter + l.count .enter_test
      + l.count .enter_unlock + l.count .enter_check + l.count .enter_post
      + l.count .enter_barrier + l.count .enter_blocked + l.count .leave_reset
      + l.count .post_empty + inside l := by
  induction l with
  | nil => simp [inside]
  | cons x xs ih =>
    simp only [inside] at ih ⊢
    cases x <;> simp [List.count_cons] <;> omega

theorem count_pos_of_get (l : List WPc) (w : Nat) (a : WPc) (h : l[w]? = some a) :
    1 ≤ l.count a := by
  have hm : a ∈ l := List.getElem?_mem h
  exact List.count_pos_iff.mpr hm

theorem count_set_get (l : List WPc) (w : Nat) (a0 a b : WPc) (h : l[w]? = some a0) :
    (l.set w a).count b = l.count b + (if a = b then 1 else 0) - (if a0 = b then 1 else 0) := by
  obtain ⟨hlt, hget⟩ := List.getElem?_eq_some_iff.mp h
  have hp := count_pos_of_get l w a0 h
  rw [List.count_set a b l w hlt, hget]
  by_cases h1 : a0 = b
  · subst h1
    by_cases h2 : a = a0
    · subst h2; simp; omega
    · simp [h2]
  · by_cases h2 : a = b
    · subst h2; simp [h1]
    · simp [h1, h2]

theorem count_release (a b c : WPc) (hab : a ≠ b) (l : List WPc) :
    (release a b l).count c
      = if c = a then 0 else if c = b then l.count b + l.count a else l.count c := by
  induction l with
  | nil => simp [release]
  | cons x xs ih =>
    simp only [release, List.map_cons] at ih ⊢
    rw [List.count_cons, ih]
    by_cases hca : c = a
    · subst hca
      by_cases hxc : x = c
      · subst hxc; simp [hab.symm]
      · simp [hxc]
    · by_cases hxa : x = a
      · subst hxa
        by_cases hcb : c = b
        · subst hcb; simp [List.count_cons, hca, Ne.symm hca]; omega
        · simp [hca, hcb, List.count_cons, Ne.symm hca, Ne.symm hcb]
      · by_cases hcb : c = b
        · subst hcb
          by_cases hxc : x = c
          · subst hxc; simp [List.count_cons, hxa, hca]; omega
          · simp [hxa, hca, hxc, List.count_cons]
        · by_cases hxc : x = c
          · subst hxc; simp [hxa, hcb, List.count_cons]
          · simp [hxa, hca, hcb, hxc, List.count_cons]

theorem all_eq_of_count (l : List WPc) (a a0 : WPc) (w : Nat) (hc : l.count a + 1 = l.length)
    (hw : l[w]? = some a0) (hne : a0 ≠ a) :
    ∀ v pc, l[v]? = some pc → v ≠ w → pc = a := by
  intro v pc hv hvw
  have h1 : (l.set w a).count a = (l.set w a).length := by
    rw [count_set_get l w a0 a a hw, List.length_set]
    simp [hne]; omega
  have h2 := List.count_eq_length.mp h1
  have h3 : (l.set w a)[v]? = some pc := by
    rw [List.getElem?_set_ne (Ne.symm hvw)]; exact hv
  exact (h2 pc (List.getElem?_mem h3)).symm
theorem hrel_set (l : List WPc) (sent : List (List (List Nat))) (w : Nat) (a0 a : WPc) (cyc : Nat)
    (hw : l[w]? = some a0) (hpost : relayed a = relayed a0)
    (hrel : ∀ (v : Nat) (pc : WPc), l[v]? = some pc →
      ∃ x : List (List Nat), sent[v]? = some x ∧ x.length = cyc + relayed pc) :
    ∀ (v : Nat) (pc : WPc), (l.set w a)[v]? = some pc →
      ∃ x : List (List Nat), sent[v]? = some x ∧ x.length = cyc + relayed pc := by
  intro v pc hv
  by_cases hvw : w = v
  · subst hvw
    have hlt : w < l.length := (List.getElem?_eq_some_iff.mp hw).1
    rw [List.getElem?_set_self hlt] at hv
    cases hv
    rw [hpost]
    exact hrel w a0 hw
  · rw [List.getElem?_set_ne hvw] at hv
    exact hrel v pc hv

theorem hrel_relay (l : List WPc) (sent : List (List (List Nat))) (w : Nat) (cyc : Nat)
    (d : List Nat)
    (hw : l[w]? = some .relay)
    (hrel : ∀ (v : Nat) (pc : WPc), l[v]? = some pc →
      ∃ x : List (List Nat), sent[v]? = some x ∧ x.length = cyc + relayed pc) :
    ∀ (v : Nat) (pc : WPc), (l.set w .lock_leave)[v]? = some pc →
      ∃ x : List (List Nat), (sent.modify (fun x => x ++ [d]) w)[v]? = some x
        ∧ x.length = cyc + relayed pc := by
  intro v pc hv
  by_cases hvw : w = v
  · subst hvw
    have hlt : w < l.length := (List.getElem?_eq_some_iff.mp hw).1
    rw [List.getElem?_set_self hlt] at hv
    cases hv
    obtain ⟨x, hx, hxl⟩ := hrel w _ hw
    refine ⟨x ++ [d], ?_, ?_⟩
    · rw [List.getElem?_modify_eq, hx]; rfl
    · simp [hxl, relayed]
  · rw [List.getElem?_set_ne hvw] at hv
    rw [List.getElem?_modify_ne _ _ hvw]
    exact hrel v pc hv

theorem hrel_release_enter (l : List WPc) (sent : List (List (List Nat))) (cyc : Nat)
    (hrel : ∀ (v : Nat) (pc : WPc), l[v]? = some pc →
      ∃ x : List (List Nat), sent[v]? = some x ∧ x.length = cyc + relayed pc) :
    ∀ (v : Nat) (pc : WPc), (release .enter_blocked .enter_reset l)[v]? = some pc →
      ∃ x : List (List Nat), sent[v]? = some x ∧ x.length = cyc + relayed pc := by
  intro v pc hv
  simp only [release, List.getElem?_map, Option.map_eq_some'] at hv
  obtain ⟨pc0, h0, hf⟩ := hv
  obtain ⟨x, hx, hxl⟩ := hrel v pc0 h0
  refine ⟨x, hx, ?_⟩
  rw [hxl, ← hf]
  cases pc0 <;> rfl

theorem hrel_release_leave (l : List WPc) (sent : List (List (List Nat))) (w : Nat) (cyc : Nat)
    (hc : l.count .leave_blocked + 1 = l.length) (hw : l[w]? = some .leave_barrier)
    (hrel : ∀ (v : Nat) (pc : WPc), l[v]? = some pc →
      ∃ x : List (List Nat), sent[v]? = some x ∧ x.length = cyc + relayed pc) :
    ∀ (v : Nat) (pc : WPc),
      (release .leave_blocked .leave_reset (l.set w .leave_reset))[v]? = some pc →
      ∃ x : List (List Nat), sent[v]? = some x ∧ x.length = cyc + 1 + relayed pc := by
  intro v pc hv
  simp only [release, List.getElem?_map, Option.map_eq_some'] at hv
  obtain ⟨pc0, h0, hf⟩ := hv
  by_cases hvw : w = v
  · subst hvw
    have hlt : w < l.length := (List.getElem?_eq_some_iff.mp hw).1
    rw [List.getElem?_set_self hlt] at h0
    cases h0
    obtain ⟨x, hx, hxl⟩ := hrel w _ hw
    refine ⟨x, hx, ?_⟩
    rw [hxl, ← hf]; rfl
  · rw [List.getElem?_set_ne hvw] at h0
    have := all_eq_of_count l .leave_blocked .leave_barrier w hc hw (by decide) v pc0 h0
      (Ne.symm hvw)
    subst this
    obtain ⟨x, hx, hxl⟩ := hrel v _ h0
    refine ⟨x, hx, ?_⟩
    rw [hxl, ← hf]; rfl

/-- Every step of a relay worker keeps the rendezvous invariant. -/
theorem LInv_wstep (N : Nat) (hN : 1 ≤ N) (s s1 : State) (w : Nat) (h : LInv N s)
    (hs : relay_thread_step N s w = some s1) : LInv N s1 := by
  have hsum := length_eq_counts s.workers
  have hb := Bool.toNat_le s.leave_mutex
  obtain ⟨hlen, hsent, hseg, heb, hlb, hmx, hlcA, hlcB, hmv1, hmv2, hrel⟩ := h
  simp only [inside] at hsum hseg hlcA hlcB
  unfold relay_thread_step at hs
  split at hs
  · cases hs
  · -- wait_full
    next hw =>
    have hp := count_pos_of_get _ _ _ hw
    split at hs
    ·
      cases hs
      refine ⟨by simpa using hlen, hsent, ?_, ?_, ?_, ?_, ?_, ?_, ?_, ?_,
        hrel_set _ _ _ _ _ _ hw rfl hrel⟩ <;>
        simp only [inside, count_set_get _ _ _ _ _ hw, reduceCtorEq, if_true, if_false, Nat.add_zero,
        Nat.sub_zero, Bool.toNat_true, Bool.toNat_false] <;>
        omega
    · cases hs
  · -- lock_enter
    next hw =>
    have hp := count_pos_of_get _ _ _ hw
    split at hs
    · cases hs
    ·
      cases hs
      refine ⟨by simpa using hlen, hsent, ?_, ?_, ?_, ?_, ?_, ?_, ?_, ?_,
        hrel_set _ _ _ _ _ _ hw rfl hrel⟩ <;>
        simp only [inside, count_set_get _ _ _ _ _ hw, reduceCtorEq, if_true, if_false, Nat.add_zero,
        Nat.sub_zero, Bool.toNat_true, Bool.toNat_false] <;>
        omega
  · -- enter_test
    next hw =>
    have hp := count_pos_of_get _ _ _ hw
    split at hs
    ·
      cases hs
      refine ⟨by simpa using hlen, hsent, ?_, ?_, ?_, ?_, ?_, ?_, ?_, ?_,
        hrel_set _ _ _ _ _ _ hw rfl hrel⟩ <;>
        simp only [inside, count_set_get _ _ _ _ _ hw, reduceCtorEq, if_true, if_false, Nat.add_zero,
        Nat.sub_zero, Bool.toNat_true, Bool.toNat_false] <;>
        omega
    ·
      cases hs
      refine ⟨by simpa using hlen, hsent, ?_, ?_, ?_, ?_, ?_, ?_, ?_, ?_,
        hrel_set _ _ _ _ _ _ hw rfl hrel⟩ <;>
        simp only [inside, count_set_get _ _ _ _ _ hw, reduceCtorEq, if_true, if_false, Nat.add_zero,
        Nat.sub_zero, Bool.toNat_true, Bool.toNat_false] <;>
        omega
  · -- enter_unlock
    next hw =>
    have hp := count_pos_of_get _ _ _ hw
    cases hs
    refine ⟨by simpa using hlen, hsent, ?_, ?_, ?_, ?_, ?_, ?_, ?_, ?_,
      hrel_set _ _ _ _ _ _ hw rfl hrel⟩ <;>
      simp only [inside, count_set_get _ _ _ _ _ hw, reduceCtorEq, if_true, if_false, Nat.add_zero,
        Nat.sub_zero, Bool.toNat_true, Bool.toNat_false] <;>
      omega
  · -- enter_check
    next hw =>
    have hp := count_pos_of_get _ _ _ hw
    split at hs
    ·
      cases hs
      refine ⟨by simpa using hlen, hsent, ?_, ?_, ?_, ?_, ?_, ?_, ?_, ?_,
        hrel_set _ _ _ _ _ _ hw rfl hrel⟩ <;>
        simp only [inside, count_set_get _ _ _ _ _ hw, reduceCtorEq, if_true, if_false, Nat.add_zero,
        Nat.sub_zero, Bool.toNat_true, Bool.toNat_false] <;>
        omega
    ·
      cases hs
      refine ⟨by simpa using hlen, hsent, ?_, ?_, ?_, ?_, ?_, ?_, ?_, ?_,
        hrel_set _ _ _ _ _ _ hw rfl hrel⟩ <;>
        simp only [inside, count_set_get _ _ _ _ _ hw, reduceCtorEq, if_true, if_false, Nat.add_zero,
        Nat.sub_zero, Bool.toNat_true, Bool.toNat_false] <;>
        omega
  · -- enter_post
    next hw =>
    have hp := count_pos_of_get _ _ _ hw
    cases hs
    refine ⟨by simpa using hlen, hsent, ?_, ?_, ?_, ?_, ?_, ?_, ?_, ?_,
      hrel_set _ _ _ _ _ _ hw rfl hrel⟩ <;>
      simp only [inside, count_set_get _ _ _ _ _ hw, reduceCtorEq, if_true, if_false, Nat.add_zero,
        Nat.sub_zero, Bool.toNat_true, Bool.toNat_false] <;>
      omega
  · -- enter_barrier
    next hw =>
    have hp := count_pos_of_get _ _ _ hw
    split at hs
    · cases hs
      refine ⟨by simpa [release] using hlen, hsent, ?_, ?_, ?_, ?_, ?_, ?_, ?_, ?_,
        hrel_release_enter _ _ _ (hrel_set _ _ _ _ _ _ hw rfl hrel)⟩ <;>
        simp only [inside, count_release WPc.enter_blocked WPc.enter_reset _ (by decide), count_set_get _ _ _ _ _ hw, reduceCtorEq,
        if_true, if_false, Nat.add_zero, Nat.sub_zero, Bool.toNat_true, Bool.toNat_false] <;>
        omega
    ·
      cases hs
      refine ⟨by simpa using hlen, hsent, ?_, ?_, ?_, ?_, ?_, ?_, ?_, ?_,
        hrel_set _ _ _ _ _ _ hw rfl hrel⟩ <;>
        simp only [inside, count_set_get _ _ _ _ _ hw, reduceCtorEq, if_true, if_false, Nat.add_zero,
        Nat.sub_zero, Bool.toNat_true, Bool.toNat_false] <;>
        omega
  · cases hs
  · -- enter_reset
    next hw =>
    have hp := count_pos_of_get _ _ _ hw
    cases hs
    refine ⟨by simpa using hlen, hsent, ?_, ?_, ?_, ?_, ?_, ?_, ?_, ?_,
      hrel_set _ _ _ _ _ _ hw rfl hrel⟩ <;>
      simp only [inside, count_set_get _ _ _ _ _ hw, reduceCtorEq, if_true, if_false, Nat.add_zero,
        Nat.sub_zero, Bool.toNat_true, Bool.toNat_false] <;>
      omega
  · -- relay
    next hw =>
    have hp := count_pos_of_get _ _ _ hw
    split at hs
    · cases hs
    · cases hs
      refine ⟨by simpa using hlen, by simpa using hsent, ?_, ?_, ?_, ?_, ?_, ?_, ?_, ?_,
        hrel_relay _ _ _ _ _ hw hrel⟩ <;>
        simp only [inside, count_set_get _ _ _ _ _ hw, reduceCtorEq, if_true, if_false, Nat.add_zero,
        Nat.sub_zero, Bool.toNat_true, Bool.toNat_false] <;>
        omega
  · -- lock_leave
    next hw =>
    have hp := count_pos_of_get _ _ _ hw
    split at hs
    · cases hs
    · next hm =>
      have hm1 : s.leave_mutex = false := by simpa using hm
      rw [hm1] at hmx
      simp only [Bool.toNat_false] at hmx
      cases hs
      refine ⟨by simpa using hlen, hsent, ?_, ?_, ?_, ?_, ?_, ?_, ?_, ?_,
        hrel_set _ _ _ _ _ _ hw rfl hrel⟩ <;>
        simp only [inside, count_set_get _ _ _ _ _ hw, reduceCtorEq, if_true, if_false, Nat.add_zero,
        Nat.sub_zero, Bool.toNat_true, Bool.toNat_false] <;>
        omega
  · -- leave_inc
    next hw =>
    have hp := count_pos_of_get _ _ _ hw
    cases hs
    refine ⟨by simpa using hlen, hsent, ?_, ?_, ?_, ?_, ?_, ?_, ?_, ?_,
      hrel_set _ _ _ _ _ _ hw rfl hrel⟩ <;>
      simp only [inside, count_set_get _ _ _ _ _ hw, reduceCtorEq, if_true, if_false, Nat.add_zero,
        Nat.sub_zero, Bool.toNat_true, Bool.toNat_false] <;>
      omega
  · -- leave_test
    next hw =>
    have hp := count_pos_of_get _ _ _ hw
    split at hs
    ·
      cases hs
      refine ⟨by simpa using hlen, hsent, ?_, ?_, ?_, ?_, ?_, ?_, ?_, ?_,
        hrel_set _ _ _ _ _ _ hw rfl hrel⟩ <;>
        simp only [inside, count_set_get _ _ _ _ _ hw, reduceCtorEq, if_true, if_false, Nat.add_zero,
        Nat.sub_zero, Bool.toNat_true, Bool.toNat_false] <;>
        omega
    ·
      cases hs
      refine ⟨by simpa using hlen, hsent, ?_, ?_, ?_, ?_, ?_, ?_, ?_, ?_,
        hrel_set _ _ _ _ _ _ hw rfl hrel⟩ <;>
        simp only [inside, count_set_get _ _ _ _ _ hw, reduceCtorEq, if_true, if_false, Nat.add_zero,
        Nat.sub_zero, Bool.toNat_true, Bool.toNat_false] <;>
        omega
  · -- leave_unlock
    next hw =>
    have hp := count_pos_of_get _ _ _ hw
    cases hs
    refine ⟨by simpa using hlen, hsent, ?_, ?_, ?_, ?_, ?_, ?_, ?_, ?_,
      hrel_set _ _ _ _ _ _ hw rfl hrel⟩ <;>
      simp only [inside, count_set_get _ _ _ _ _ hw, reduceCtorEq, if_true, if_false, Nat.add_zero,
        Nat.sub_zero, Bool.toNat_true, Bool.toNat_false] <;>
      omega
  · -- leave_barrier
    next hw =>
    have hp := count_pos_of_get _ _ _ hw
    split at hs
    · cases hs
      refine ⟨by simpa [release] using hlen, hsent, ?_, ?_, ?_, ?_, ?_, ?_, ?_, ?_,
        hrel_release_leave _ _ _ _ (by omega) hw hrel⟩ <;>
        simp only [inside, count_release WPc.leave_blocked WPc.leave_reset _ (by decide), count_set_get _ _ _ _ _ hw, reduceCtorEq,
        if_true, if_false, Nat.add_zero, Nat.sub_zero, Bool.toNat_true, Bool.toNat_false] <;>
        omega
    ·
      cases hs
      refine ⟨by simpa using hlen, hsent, ?_, ?_, ?_, ?_, ?_, ?_, ?_, ?_,
        hrel_set _ _ _ _ _ _ hw rfl hrel⟩ <;>
        simp only [inside, count_set_get _ _ _ _ _ hw, reduceCtorEq, if_true, if_false, Nat.add_zero,
        Nat.sub_zero, Bool.toNat_true, Bool.toNat_false] <;>
        omega
  · cases hs
  · -- leave_reset
    next hw =>
    have hp := count_pos_of_get _ _ _ hw
    cases hs
    refine ⟨by simpa using hlen, hsent, ?_, ?_, ?_, ?_, ?_, ?_, ?_, ?_,
      hrel_set _ _ _ _ _ _ hw rfl hrel⟩ <;>
      simp only [inside, count_set_get _ _ _ _ _ hw, reduceCtorEq, if_true, if_false, Nat.add_zero,
        Nat.sub_zero, Bool.toNat_true, Bool.toNat_false] <;>
      first | omega | (intro _; exact Or.inl trivial)
  · -- post_empty
    next hw =>
    have hp := count_pos_of_get _ _ _ hw
    cases hs
    refine ⟨by simpa using hlen, hsent, ?_, ?_, ?_, ?_, ?_, ?_, ?_, ?_,
      hrel_set _ _ _ _ _ _ hw rfl hrel⟩ <;>
      simp only [inside, count_set_get _ _ _ _ _ hw, reduceCtorEq, if_true, if_false, Nat.add_zero,
        Nat.sub_zero, Bool.toNat_true, Bool.toNat_false] <;>
      omega
theorem LInv_init (N C : Nat) (junk : payload) (net : List Recv) (hN : 1 ≤ N) :
    LInv N (init N C junk net) := by
  refine ⟨by simp [init], by simp [init], ?_, ?_, ?_, ?_, ?_, ?_, ?_, ?_, ?_⟩
  · left; simp [init, inside, List.count_replicate]
  · simp [init, List.count_replicate]
  · simp [init, List.count_replicate]
  · simp [init, List.count_replicate]
  · intro h
    simp [init, inside, List.count_replicate] at h
    omega
  · intro _; left; rfl
  · intro h
    simp [init, List.count_replicate] at h
    omega
  · intro _; rfl
  · intro v pc hv
    simp only [init, List.getElem?_replicate] at hv ⊢
    split at hv
    · next hlt =>
      cases hv
      exact ⟨[], by simp [hlt], rfl⟩
    · cases hv

/-- The listener's steps leave the workers, their logs and the leave-side
globals alone. -/
theorem lstep_frame (s s1 : State) (hs : udp_listener_step s = some s1) :
    s1.workers = s.workers ∧ s1.sent = s.sent ∧ s1.enter_barrier = s.enter_barrier
    ∧ s1.leave_barrier = s.leave_barrier ∧ s1.leave_mutex = s.leave_mutex
    ∧ s1.leave_count = s.leave_count ∧ s1.moves = s.moves ∧ s1.cycles = s.cycles := by
  unfold udp_listener_step at hs
  split at hs
  · split at hs
    · cases hs
    · split at hs <;> cases hs <;> exact ⟨rfl, rfl, rfl, rfl, rfl, rfl, rfl, rfl⟩
  · split at hs
    · cases hs; exact ⟨rfl, rfl, rfl, rfl, rfl, rfl, rfl, rfl⟩
    · cases hs
  · cases hs; exact ⟨rfl, rfl, rfl, rfl, rfl, rfl, rfl, rfl⟩
  · cases hs; exact ⟨rfl, rfl, rfl, rfl, rfl, rfl, rfl, rfl⟩

theorem LInv_lstep (N : Nat) (s s1 : State) (h : LInv N s) (hs : udp_listener_step s = some s1) :
    LInv N s1 := by
  obtain ⟨h1, h2, h3, h4, h5, h6, h7, h8⟩ := lstep_frame s s1 hs
  obtain ⟨hlen, hsent, hseg, heb, hlb, hmx, hlcA, hlcB, hmv1, hmv2, hrel⟩ := h
  refine ⟨?_, ?_, ?_, ?_, ?_, ?_, ?_, ?_, ?_, ?_, ?_⟩
  · rw [h1]; exact hlen
  · rw [h2]; exact hsent
  · rw [h1]; exact hseg
  · rw [h1, h3]; exact heb
  · rw [h1, h4]; exact hlb
  · rw [h1, h5]; exact hmx
  · rw [h1, h6]; exact hlcA
  · rw [h1, h6]; exact hlcB
  · rw [h1, h7, h8]; exact hmv1
  · rw [h1, h7, h8]; exact hmv2
  · rw [h1, h2, h8]; exact hrel

theorem LInv_run (N : Nat) (hN : 1 ≤ N) (sched : List Tid) :
    ∀ (s s1 : State), LInv N s → run N s sched = some s1 → LInv N s1 := by
  induction sched with
  | nil => intro s s1 h hr; simp only [run] at hr; cases hr; exact h
  | cons t ts ih =>
    intro s s1 h hr
    simp only [run] at hr
    cases hst : step N s t with
    | none => rw [hst] at hr; cases hr
    | some s2 =>
      rw [hst] at hr
      refine ih s2 s1 ?_ hr
      cases t with
      | listener => exact LInv_lstep N s s2 h hst
      | relay w => exact LInv_wstep N hN s s2 w h hst

theorem LInv_reachable (N C : Nat) (junk : payload) (net : List Recv) (s : State) (hN : 1 ≤ N)
    (hr : Reachable N C junk net s) : LInv N s := by
  obtain ⟨sched, hs⟩ := hr
  exact LInv_run N hN sched _ s (LInv_init N C junk net hN) hs

/-- A worker step changes `moves` only at the test of line 249 with
`leave_count == num_threads`, where it calls `cb_move_rptr`; no other worker
step touches the ring. -/
theorem wstep_moves (N : Nat) (s s1 : State) (w : Nat) (hs : relay_thread_step N s w = some s1) :
    (s1.moves = s.moves ∧ s1.cbuff = s.cbuff)
    ∨ (s.workers[w]? = some .leave_test ∧ s.leave_count = N ∧ s1.moves = s.moves + 1
        ∧ s1.cbuff = cb_move_rptr s.cbuff) := by
  unfold relay_thread_step at hs
  split at hs
  · cases hs
  all_goals first
    | (cases hs; exact Or.inl ⟨rfl, rfl⟩)
    | (split at hs <;> first
        | (cases hs; done)
        | (cases hs; exact Or.inl ⟨rfl, rfl⟩)
        | (rename_i hw hc; cases hs; exact Or.inr ⟨hw, hc, rfl, rfl⟩))
    | cases hs

theorem countP_has_incremented (l : List WPc) :
    l.countP has_incremented = l.count .leave_test + l.count .leave_unlock
      + l.count .leave_barrier + l.count .leave_blocked := by
  induction l with
  | nil => simp
  | cons x xs ih =>
    cases x <;> simp [List.countP_cons, List.count_cons, has_incremented, ih] <;> omega
theorem count_two_of_get (l : List WPc) (a b : WPc) (v w : Nat) (hab : b ≠ a)
    (hw : l[w]? = some a) (hv : l[v]? = some a) (hvw : v ≠ w) : 2 ≤ l.count a := by
  have h1 := count_set_get l w a b a hw
  have h2 : (l.set w b)[v]? = some a := by
    rw [List.getElem?_set_ne (Ne.symm hvw)]; exact hv
  have h3 := count_pos_of_get _ _ _ h2
  have h4 := count_pos_of_get _ _ _ hw
  simp [hab] at h1
  omega

theorem lstep_rptr (s s1 : State) (hs : udp_listener_step s = some s1) :
    s1.cbuff.r_ptr = s.cbuff.r_ptr := by
  unfold udp_listener_step at hs
  split at hs
  · split at hs
    · cases hs
    · split at hs <;> cases hs <;> rfl
  · split at hs
    · cases hs; rfl
    · cases hs
  · cases hs
    show (cb_write_elem s.cbuff s.listener.p).r_ptr = s.cbuff.r_ptr
    unfold cb_write_elem cb_move_wptr
    dsimp only
    split
    · split <;> rfl
    · rfl
  · cases hs; rfl

theorem run_after (N : Nat) (s : State) (sched : List Tid) (h : (run N s sched).isSome = true) :
    run N s sched = some (after N s sched) := by
  unfold after
  cases hr : run N s sched with
  | none => rw [hr] at h; cases h
  | some x => rfl

theorem relayed_le_one (pc : WPc) : relayed pc ≤ 1 := by
  cases pc <;> decide

theorem countP_passed_test (l : List WPc) :
    l.countP passed_test
      = l.count .leave_unlock + l.count .leave_barrier + l.count .leave_blocked := by
  induction l with
  | nil => simp
  | cons x xs ih =>
    cases x <;> simp [List.countP_cons, List.count_cons, passed_test, ih] <;> omega

theorem countP_in_region (l : List WPc) : l.countP in_region = inside l := by
  induction l with
  | nil => simp [inside]
  | cons x xs ih =>
    simp only [inside] at ih ⊢
    cases x <;> simp [List.countP_cons, List.count_cons, in_region, ih] <;> omega

theorem countP_lt_of_get (p : WPc → Bool) (l : List WPc) (w : Nat) (a : WPc)
    (hw : l[w]? = some a) (hpa : p a = false) : l.countP p < l.length := by
  rcases Nat.lt_or_ge (l.countP p) l.length with h | h
  · exact h
  · have h1 : l.countP p = l.length := Nat.le_antisymm (List.countP_le_length p) h
    have h2 := List.countP_eq_length.mp h1 a (List.getElem?_mem hw)
    rw [hpa] at h2
    cases h2

theorem not_passed_of_relayed_zero (pc : WPc) (h : relayed pc = 0) :
    passed_test pc = false := by
  cases pc <;> first | rfl | (simp [relayed] at h)

theorem relayed_of_outside (pc : WPc) (h : in_region pc = false) : relayed pc = 0 := by
  cases pc <;> first | rfl | (simp [in_region] at h)

theorem relayed_of_incremented (pc : WPc) (h : has_incremented pc = true) : relayed pc = 1 := by
  cases pc <;> first | rfl | (simp [has_incremented] at h)

/-- C4. In every state the listener and `N ≥ 1` workers can reach: `moves` (the
calls of `cb_move_rptr`) equals the number of completed cycles or is one ahead;
no worker has relayed fewer than `moves` or more than `moves + 1` datagrams, and
a worker outside the region between the two barriers has relayed exactly
`moves = cycles`; the only step that advances the read cursor is the test of
line 249 by the worker that finds `leave_count == num_threads`, it advances it
by one `cb_move_rptr`, and at that moment every worker has relayed the current
slot and all the others are at or inside the leave barrier; while a worker is
about to lock or to increment, `leave_count` is the number of workers that have
incremented in this cycle (so `0` for the first) and is below `N`. -/
theorem read_cursor_advances_once_per_cycle (N C : Nat) (junk : payload) (net : List Recv)
    (s : State) (hN : 1 ≤ N) (hr : Reachable N C junk net s) :
    (s.workers.length = N ∧ s.sent.length = N)
    ∧ (s.cycles ≤ s.moves ∧ s.moves ≤ s.cycles + 1)
    ∧ (∀ (w : Nat) (l : List (List Nat)), s.sent[w]? = some l →
        s.moves ≤ l.length ∧ l.length ≤ s.moves + 1)
    ∧ (∀ (w : Nat) (pc : WPc) (l : List (List Nat)),
        s.workers[w]? = some pc → s.sent[w]? = some l → in_region pc = false →
        l.length = s.moves ∧ s.moves = s.cycles)
    ∧ (∀ (w : Nat) (s1 : State), relay_thread_step N s w = some s1 →
        (s1.moves = s.moves ∧ s1.cbuff = s.cbuff)
        ∨ (s.workers[w]? = some WPc.leave_test ∧ s.leave_count = N
            ∧ s1.moves = s.moves + 1 ∧ s1.cbuff = cb_move_rptr s.cbuff
            ∧ (∀ (v : Nat) (l : List (List Nat)), s.sent[v]? = some l → l.length = s.moves + 1)
            ∧ (∀ (v : Nat) (pc : WPc), s.workers[v]? = some pc → v ≠ w →
                pc = WPc.leave_barrier ∨ pc = WPc.leave_blocked)))
    ∧ (∀ (s1 : State), udp_listener_step s = some s1 →
        s1.moves = s.moves ∧ s1.cbuff.r_ptr = s.cbuff.r_ptr)
    ∧ (∀ (w : Nat), s.workers[w]? = some WPc.lock_leave ∨ s.workers[w]? = some WPc.leave_inc →
        s.leave_count = s.workers.countP has_incremented ∧ s.leave_count < N) := by
  have hI := LInv_reachable N C junk net s hN hr
  have hsum := length_eq_counts s.workers
  have hb := Bool.toNat_le s.leave_mutex
  obtain ⟨hlen, hsent, hseg, heb, hlb, hmx, hlcA, hlcB, hmv1, hmv2, hrel⟩ := hI
  simp only [inside] at hsum hseg hlcA hlcB
  have hpc : ∀ (w : Nat) (l : List (List Nat)), s.sent[w]? = some l →
      ∃ pc, s.workers[w]? = some pc ∧ l.length = s.cycles + relayed pc := by
    intro w l hl
    have hlt : w < s.workers.length := by
      rw [hlen, ← hsent]; exact (List.getElem?_eq_some_iff.mp hl).1
    refine ⟨s.workers[w], List.getElem?_eq_getElem hlt, ?_⟩
    obtain ⟨x, hx, hxl⟩ := hrel w _ (List.getElem?_eq_getElem hlt)
    rw [hl] at hx
    cases hx
    exact hxl
  refine ⟨⟨hlen, hsent⟩, by omega, ?_, ?_, ?_, ?_, ?_⟩
  · intro w l hl
    obtain ⟨pc, hw, hxl⟩ := hpc w l hl
    have h1 := relayed_le_one pc
    by_cases hpass : s.workers.count .leave_unlock + s.workers.count .leave_barrier
        + s.workers.count .leave_blocked = N
    · have h2 : relayed pc = 1 := by
        rcases Nat.eq_zero_or_pos (relayed pc) with h0 | h0
        · have := countP_lt_of_get _ s.workers w pc hw (not_passed_of_relayed_zero pc h0)
          rw [countP_passed_test] at this
          omega
        · omega
      have := hmv1 hpass
      omega
    · have := hmv2 hpass
      omega
  · intro w pc l hw hl hout
    obtain ⟨pc1, hw1, hxl⟩ := hpc w l hl
    rw [hw] at hw1
    cases hw1
    have h1 := countP_lt_of_get _ s.workers w pc hw hout
    rw [countP_in_region] at h1
    simp only [inside] at h1
    have h2 := relayed_of_outside pc hout
    have h3 : s.workers.count .leave_unlock + s.workers.count .leave_barrier
        + s.workers.count .leave_blocked ≠ N := by omega
    have := hmv2 h3
    omega
  · intro w s1 hs
    rcases wstep_moves N s s1 w hs with h | ⟨hw, hc, hm, hcb⟩
    · exact Or.inl h
    · right
      have hp := count_pos_of_get _ _ _ hw
      have hin : s.leave_count = s.workers.count .leave_test + s.workers.count .leave_unlock
          + s.workers.count .leave_barrier + s.workers.count .leave_blocked := hlcA (by omega)
      have hall : ∀ (v : Nat) (pc : WPc), s.workers[v]? = some pc → has_incremented pc = true := by
        intro v pc hv
        cases hinc : has_incremented pc with
        | true => rfl
        | false =>
          have := countP_lt_of_get _ s.workers v pc hv hinc
          rw [countP_has_incremented] at this
          omega
      have hmoves : s.moves = s.cycles := hmv2 (by omega)
      refine ⟨hw, hc, hm, hcb, ?_, ?_⟩
      · intro v l hl
        obtain ⟨pc, hv, hxl⟩ := hpc v l hl
        rw [hxl, relayed_of_incremented pc (hall v pc hv), hmoves]
      · intro v pc hv hvw
        have hp1 := count_pos_of_get _ _ _ hv
        have hinc := hall v pc hv
        cases pc <;> simp only [has_incremented, reduceCtorEq] at hinc
        · have := count_two_of_get s.workers WPc.leave_test WPc.wait_full v w (by decide) hw hv hvw
          omega
        · omega
        · exact Or.inl rfl
        · exact Or.inr rfl
  · intro s1 hs
    exact ⟨(lstep_frame s s1 hs).2.2.2.2.2.2.1, lstep_rptr s s1 hs⟩
  · intro w hw
    rw [countP_has_incremented]
    rcases hw with hw | hw <;>
    · have hp := count_pos_of_get _ _ _ hw
      omega

theorem read_cursor_advances_once_per_cycle_witness :
    1 ≤ 2
    ∧ Reachable 2 50 zero_payload [dg 0] (after 2 (init 2 50 zero_payload [dg 0]) sched_overpost)
    ∧ (after 2 (init 2 50 zero_payload [dg 0]) sched_overpost).moves
        ≤ (after 2 (init 2 50 zero_payload [dg 0]) sched_overpost).cycles + 1 :=
  have hsome : (run 2 (init 2 50 zero_payload [dg 0]) sched_overpost).isSome = true := by decide!
  have hreach : Reachable 2 50 zero_payload [dg 0]
      (after 2 (init 2 50 zero_payload [dg 0]) sched_overpost) :=
    ⟨sched_overpost, run_after 2 _ _ hsome⟩
  ⟨by decide, hreach,
    (read_cursor_advances_once_per_cycle 2 50 zero_payload [dg 0] _ (by decide) hreach).2.1.2⟩
/-! ## The capacity scenario -/

theorem run_append (N : Nat) (xs ys : List Tid) :
    ∀ (s s1 : State), run N s xs = some s1 → run N s (xs ++ ys) = run N s1 ys := by
  induction xs with
  | nil => intro s s1 h; simp only [run] at h; cases h; rfl
  | cons t ts ih =>
    intro s s1 h
    simp only [run, List.cons_append] at h ⊢
    cases hst : step N s t with
    | none => rw [hst] at h; cases h
    | some s2 =>
      rw [hst] at h
      simp only []
      exact ih s2 s1 h

theorem rep_add (m n : Nat) (t : Tid) : rep (m + n) t = rep m t ++ rep n t := by
  unfold rep
  exact (List.append_replicate_replicate).symm

theorem fill_nth_of_get (junk : payload) (net : List Recv) (k : Nat) (r : Recv)
    (h : net[k]? = some r) :
    fill_nth junk net k
      = (listener_fill (if k = 0 then junk else zero_payload)
          (recvfrom (if k = 0 then junk.data else List.replicate BUFF_SIZE 0) r) r.received).1 := by
  unfold fill_nth
  rw [h]
  dsimp only
  split <;> rfl

theorem cbCalls_snoc {α : Type} (c : cb α) (xs : List (CbCall α)) (e : α) :
    cbCalls c (xs ++ [CbCall.write e]) = cb_write_elem (cbCalls c xs) e := by
  simp [cbCalls, List.foldl_append, cbCall]

/-- One full iteration of the listener on a non-empty datagram, from `filled`. -/
theorem filled_succ (N C : Nat) (junk : payload) (net : List Recv) (k : Nat)
    (hk : k < C) (hlen : k < net.length) (hnz : (net[k]).received ≠ 0) :
    run N (filled N C junk net k) (rep 4 .listener) = some (filled N C junk net (k + 1)) := by
  have hget : net[k]? = some net[k] := List.getElem?_eq_getElem hlen
  have hdrop : net.drop k = net[k] :: net.drop (k + 1) := List.drop_eq_getElem_cons hlen
  have hpos : 0 < C - k := by omega
  have hfill := fill_nth_of_get junk net k _ hget
  have hrep : rep 4 Tid.listener = [.listener, .listener, .listener, .listener] := rfl
  simp only [hrep, run, step, udp_listener_step, filled, hdrop, hnz, if_false, hpos, if_true, Nat.sub_sub]
  simp only [filled, List.range_succ, List.map_append, List.map_cons, List.map_nil, cbCalls_snoc,
    hfill, Nat.succ_ne_zero, if_false, zero_payload]

theorem run_filled (N C : Nat) (junk : payload) (net : List Recv)
    (hnz : ∀ r ∈ net, r.received ≠ 0) :
    ∀ k, k ≤ C → k ≤ net.length →
      run N (init N C junk net) (rep (4 * k) .listener) = some (filled N C junk net k) := by
  intro k
  induction k with
  | zero =>
    intro _ _
    simp [rep, run, init, filled, cbCalls]
  | succ k ih =>
    intro hk hlen
    have h1 := ih (by omega) (by omega)
    have e : 4 * (k + 1) = 4 * k + 4 := by omega
    rw [e, rep_add, run_append N _ _ _ _ h1]
    exact filled_succ N C junk net k (by omega) (by omega)
      (hnz _ (List.getElem_mem (by omega)))
theorem run_pending (N C : Nat) (junk : payload) (net : List Recv)
    (hlen : C < net.length) (hnz : (net[C]).received ≠ 0) :
    run N (filled N C junk net C) [.listener] = some (pending N C junk net)
    ∧ udp_listener_step (pending N C junk net) = none := by
  have hget : net[C]? = some net[C] := List.getElem?_eq_getElem hlen
  have hdrop : net.drop C = net[C] :: net.drop (C + 1) := List.drop_eq_getElem_cons hlen
  have hfill := fill_nth_of_get junk net C _ hget
  constructor
  · simp only [run, step, udp_listener_step, filled, hdrop, hnz, if_false, pending, nth_recv, hget,
      Option.getD_some, hfill]
  · simp [udp_listener_step, pending, filled]

theorem get_mid (pre post : List WPc) (x : WPc) : (pre ++ x :: post)[pre.length]? = some x := by
  induction pre with
  | nil => simp
  | cons a as ih => simpa using ih

theorem set_mid (pre post : List WPc) (x y : WPc) :
    (pre ++ x :: post).set pre.length y = pre ++ y :: post := by
  induction pre with
  | nil => rfl
  | cons a as ih => simp [ih]

/-- A worker that is not the last to enter: `sem_wait`, lock, test and
increment, unlock, check, re-signal, then it blocks in the enter barrier. -/
theorem enter_pass (N : Nat) (s : State) (pre post : List WPc)
    (hw : s.workers = pre ++ WPc.wait_full :: post) (hfull : 0 < s.full_buff)
    (hmx : s.enter_mutex = false) (hcnt : s.enter_count + 1 < N)
    (hbar : s.enter_barrier + 1 ≠ N) :
    run N s (rep 7 (.relay pre.length))
      = some { s with enter_count := s.enter_count + 1
                      enter_barrier := s.enter_barrier + 1
                      resignals := s.resignals + 1
                      workers := pre ++ WPc.enter_blocked :: post } := by
  have hrep : rep 7 (Tid.relay pre.length) = [.relay pre.length, .relay pre.length,
    .relay pre.length, .relay pre.length, .relay pre.length, .relay pre.length,
    .relay pre.length] := rfl
  have h1 : s.enter_count < N := by omega
  have h2 : s.enter_count + 1 ≠ N := by omega
  have h3 : s.full_buff - 1 + 1 = s.full_buff := by omega
  simp only [hrep, run, step, relay_thread_step, hw, get_mid, set_mid, hfull, if_true, hmx, h1, h2, hbar,
    if_false, Bool.false_eq_true, ne_eq, not_false_eq_true, h3]

/-- The last worker to enter: no re-signal, and its arrival opens the enter
barrier. -/
theorem enter_pass_last (N : Nat) (s : State) (pre post : List WPc)
    (hw : s.workers = pre ++ WPc.wait_full :: post) (hfull : 0 < s.full_buff)
    (hmx : s.enter_mutex = false) (hcnt : s.enter_count + 1 = N)
    (hbar : s.enter_barrier + 1 = N) :
    run N s (rep 6 (.relay pre.length))
      = some { s with full_buff := s.full_buff - 1
                      enter_count := N
                      enter_barrier := 0
                      workers := release .enter_blocked .enter_reset
                        (pre ++ WPc.enter_reset :: post) } := by
  have hrep : rep 6 (Tid.relay pre.length) = [.relay pre.length, .relay pre.length,
    .relay pre.length, .relay pre.length, .relay pre.length, .relay pre.length] := rfl
  have h1 : s.enter_count < N := by omega
  simp only [hrep, run, step, relay_thread_step, hw, get_mid, set_mid, hfull, if_true, hmx, h1, hcnt, hbar,
    if_false, Bool.false_eq_true, ne_eq, not_true_eq_false]

/-- A worker that is not the last to leave: it resets `enter_count`, relays the
slot at `r_ptr`, takes the leave mutex, increments, tests, unlocks and blocks
in the leave barrier. -/
theorem leave_pass (N : Nat) (s : State) (pre post : List WPc) (pl : payload)
    (hw : s.workers = pre ++ WPc.enter_reset :: post)
    (hslot : s.cbuff.elems[s.cbuff.slot s.cbuff.r_ptr]? = some pl)
    (hmx : s.leave_mutex = false) (hcnt : s.leave_count + 1 ≠ N)
    (hbar : s.leave_barrier + 1 ≠ N) :
    run N s (rep 7 (.relay pre.length))
      = some { s with enter_count := 0
                      leave_count := s.leave_count + 1
                      leave_barrier := s.leave_barrier + 1
                      sent := s.sent.modify (fun l => l ++ [relay_payload pl]) pre.length
                      workers := pre ++ WPc.leave_blocked :: post } := by
  have hrep : rep 7 (Tid.relay pre.length) = [.relay pre.length, .relay pre.length,
    .relay pre.length, .relay pre.length, .relay pre.length, .relay pre.length,
    .relay pre.length] := rfl
  simp only [hrep, run, step, relay_thread_step, hw, get_mid, set_mid, hslot, hmx, hcnt, hbar,
    if_false, Bool.false_eq_true, ne_eq, not_false_eq_true]

/-- The last worker to leave: its increment brings `leave_count` to `N`, it
calls `cb_move_rptr`, and its arrival opens the leave barrier. -/
theorem leave_pass_last (N : Nat) (s : State) (pre post : List WPc) (pl : payload)
    (hw : s.workers = pre ++ WPc.enter_reset :: post)
    (hslot : s.cbuff.elems[s.cbuff.slot s.cbuff.r_ptr]? = some pl)
    (hmx : s.leave_mutex = false) (hcnt : s.leave_count + 1 = N)
    (hbar : s.leave_barrier + 1 = N) :
    run N s (rep 7 (.relay pre.length))
      = some { s with cbuff := cb_move_rptr s.cbuff
                      enter_count := 0
                      leave_count := N
                      leave_barrier := 0
                      moves := s.moves + 1
                      cycles := s.cycles + 1
                      sent := s.sent.modify (fun l => l ++ [relay_payload pl]) pre.length
                      workers := release .leave_blocked .leave_reset
                        (pre ++ WPc.leave_reset :: post) } := by
  have hrep : rep 7 (Tid.relay pre.length) = [.relay pre.length, .relay pre.length,
    .relay pre.length, .relay pre.length, .relay pre.length, .relay pre.length,
    .relay pre.length] := rfl
  simp only [hrep, run, step, relay_thread_step, hw, get_mid, set_mid, hslot, hmx, hcnt, hbar,
    if_false, if_true, Bool.false_eq_true, ne_eq, not_true_eq_false]

/-- After the leave barrier a worker resets `leave_count` and posts
`empty_buff`. -/
theorem post_pass (N : Nat) (s : State) (pre post : List WPc)
    (hw : s.workers = pre ++ WPc.leave_reset :: post) :
    run N s (rep 2 (.relay pre.length))
      = some { s with leave_count := 0
                      empty_buff := s.empty_buff + 1
                      workers := pre ++ WPc.wait_full :: post } := by
  have hrep : rep 2 (Tid.relay pre.length) = [.relay pre.length, .relay pre.length] := rfl
  simp only [hrep, run, step, relay_thread_step, hw, get_mid, set_mid]
theorem release_replicate (a b : WPc) (i : Nat) :
    release a b (List.replicate i a ++ [b]) = List.replicate (i + 1) b := by
  unfold release
  rw [List.map_append, List.map_replicate]
  simp [List.replicate_succ']

theorem replicate_snoc_append (a b : WPc) (i m : Nat) :
    List.replicate i a ++ a :: List.replicate m b
      = List.replicate (i + 1) a ++ List.replicate m b := by
  rw [List.replicate_succ', List.append_assoc]
  rfl

/-- Workers `i .. i+m` enter one after the other; the last opens the barrier. -/
theorem enter_phase (N : Nat) :
    ∀ (m i : Nat) (s : State), i + m + 1 = N →
      s.workers = List.replicate i WPc.enter_blocked ++ List.replicate (m + 1) WPc.wait_full →
      0 < s.full_buff → s.enter_mutex = false → s.enter_count = i → s.enter_barrier = i →
      run N s (enter_sched i m)
        = some { s with full_buff := s.full_buff - 1
                        enter_count := N
                        enter_barrier := 0
                        resignals := s.resignals + m
                        workers := List.replicate N WPc.enter_reset } := by
  intro m
  induction m with
  | zero =>
    intro i s hN hw hfull hmx hcnt hbar
    have hlen : (List.replicate i WPc.enter_blocked).length = i := List.length_replicate _ _
    have h := enter_pass_last N s (List.replicate i WPc.enter_blocked) [] hw hfull hmx
      (by omega) (by omega)
    rw [hlen] at h
    simp only [enter_sched]
    rw [h, release_replicate]
    have hN1 : i + 1 = N := by omega
    rw [hN1]
    rfl
  | succ m ih =>
    intro i s hN hw hfull hmx hcnt hbar
    have hlen : (List.replicate i WPc.enter_blocked).length = i := List.length_replicate _ _
    have hw1 : s.workers = List.replicate i WPc.enter_blocked
        ++ WPc.wait_full :: List.replicate (m + 1) WPc.wait_full := by
      rw [hw]; rfl
    have h := enter_pass N s (List.replicate i WPc.enter_blocked) _ hw1 hfull hmx
      (by omega) (by omega)
    rw [hlen] at h
    simp only [enter_sched]
    rw [run_append N _ _ _ _ h]
    refine Eq.trans (ih (i + 1) _ (by omega) (replicate_snoc_append _ _ _ _) hfull hmx
      (by simp [hcnt]) (by simp [hbar])) ?_
    have e : s.resignals + 1 + m = s.resignals + (m + 1) := by omega
    simp only [e]

theorem release_replicate_leave (i : Nat) :
    release WPc.leave_blocked WPc.leave_reset (List.replicate i WPc.leave_blocked ++ [WPc.leave_reset])
      = List.replicate (i + 1) WPc.leave_reset := release_replicate _ _ i

/-- The log of relayed datagrams after workers `0 .. i-1` of `i + m` have
relayed `d` in the first cycle. -/
theorem modify_sent (d : List Nat) (i m : Nat) :
    (List.replicate i [d] ++ List.replicate (m + 1) ([] : List (List Nat))).modify
        (fun l => l ++ [d]) i
      = List.replicate (i + 1) [d] ++ List.replicate m [] := by
  induction i with
  | zero => simp [List.replicate_succ, List.modify]
  | succ i ih =>
    rw [List.replicate_succ, List.cons_append, List.modify_succ_cons, ih]
    simp [List.replicate_succ]

/-- Workers `i .. i+m` relay and leave one after the other; the last advances
the read pointer and opens the leave barrier. -/
theorem leave_phase (N : Nat) (pl : payload) :
    ∀ (m i : Nat) (s : State), i + m + 1 = N →
      s.workers = List.replicate i WPc.leave_blocked ++ List.replicate (m + 1) WPc.enter_reset →
      s.sent = List.replicate i [relay_payload pl] ++ List.replicate (m + 1) [] →
      s.cbuff.elems[s.cbuff.slot s.cbuff.r_ptr]? = some pl →
      s.leave_mutex = false → s.leave_count = i → s.leave_barrier = i →
      run N s (leave_sched i m)
        = some { s with cbuff := cb_move_rptr s.cbuff
                        enter_count := 0
                        leave_count := N
                        leave_barrier := 0
                        moves := s.moves + 1
                        cycles := s.cycles + 1
                        sent := List.replicate N [relay_payload pl]
                        workers := List.replicate N WPc.leave_reset } := by
  intro m
  induction m with
  | zero =>
    intro i s hN hw hsent hslot hmx hcnt hbar
    have hlen : (List.replicate i WPc.leave_blocked).length = i := List.length_replicate _ _
    have h := leave_pass_last N s (List.replicate i WPc.leave_blocked) [] pl hw hslot hmx
      (by omega) (by omega)
    rw [hlen] at h
    simp only [leave_sched]
    rw [h, release_replicate, hsent, modify_sent]
    have hN1 : i + 1 = N := by omega
    rw [hN1]
    simp
  | succ m ih =>
    intro i s hN hw hsent hslot hmx hcnt hbar
    have hlen : (List.replicate i WPc.leave_blocked).length = i := List.length_replicate _ _
    have hw1 : s.workers = List.replicate i WPc.leave_blocked
        ++ WPc.enter_reset :: List.replicate (m + 1) WPc.enter_reset := by
      rw [hw]; rfl
    have h := leave_pass N s (List.replicate i WPc.leave_blocked) _ pl hw1 hslot hmx
      (by omega) (by omega)
    rw [hlen] at h
    simp only [leave_sched]
    rw [run_append N _ _ _ _ h]
    exact ih (i + 1) _ (by omega) (replicate_snoc_append _ _ _ _)
      (by simp only [hsent]; exact modify_sent _ _ _) hslot hmx
      (by simp [hcnt]) (by simp [hbar])

/-- Workers `i .. i+m-1` reset `leave_count` and post `empty_buff`. -/
theorem post_phase (N : Nat) :
    ∀ (m i : Nat) (s : State), 0 < m →
      s.workers = List.replicate i WPc.wait_full ++ List.replicate m WPc.leave_reset →
      run N s (post_sched i m)
        = some { s with leave_count := 0
                        empty_buff := s.empty_buff + m
                        workers := List.replicate (i + m) WPc.wait_full } := by
  intro m
  induction m with
  | zero => intro i s h0; omega
  | succ m ih =>
    intro i s _ hw
    have hlen : (List.replicate i WPc.wait_full).length = i := List.length_replicate _ _
    have hw1 : s.workers = List.replicate i WPc.wait_full
        ++ WPc.leave_reset :: List.replicate m WPc.leave_reset := by
      rw [hw]; rfl
    have h := post_pass N s (List.replicate i WPc.wait_full) _ hw1
    rw [hlen] at h
    simp only [post_sched]
    rw [run_append N _ _ _ _ h]
    rcases Nat.eq_zero_or_pos m with h0 | hpos
    · subst h0
      simp [post_sched, run, List.replicate_succ']
    · refine Eq.trans (ih (i + 1) _ hpos (replicate_snoc_append _ _ _ _)) ?_
      have e1 : s.empty_buff + 1 + m = s.empty_buff + (m + 1) := by omega
      have e2 : i + 1 + m = i + (m + 1) := by omega
      simp only [e1, e2]
theorem flowOk_writes {α : Type} (C : Nat) (xs : List α) :
    ∀ (w : Nat), w + xs.length ≤ C → flowOk C w 0 (xs.map CbCall.write) = true := by
  induction xs with
  | nil => intro w _; rfl
  | cons x xs ih =>
    intro w h
    simp only [List.length_cons] at h
    simp only [List.map_cons, flowOk, Bool.and_eq_true, decide_eq_true_eq]
    exact ⟨by omega, ih (w + 1) (by omega)⟩

theorem writesOf_writes {α : Type} (xs : List α) :
    writesOf (xs.map CbCall.write) = xs ∧ advancesOf (xs.map CbCall.write) = 0 := by
  induction xs with
  | nil => exact ⟨rfl, rfl⟩
  | cons x xs ih => simp [writesOf, advancesOf, ih.1, ih.2]

/-- The ring after the listener alone has stored `k ≤ C` payloads. -/
theorem ring_filled (N C : Nat) (junk : payload) (net : List Recv) (k : Nat)
    (hC : 1 ≤ C) (hk : k ≤ C) :
    RingInv C sizeof_payload (filled N C junk net k).cbuff k 0
      ((List.range k).map (fill_nth junk net)) := by
  have hes : 0 < sizeof_payload := by decide
  have hmap : (List.range k).map (fun i => CbCall.write (fill_nth junk net i))
      = ((List.range k).map (fill_nth junk net)).map CbCall.write := by
    rw [List.map_map]; rfl
  have hf := flowOk_writes C ((List.range k).map (fill_nth junk net)) 0 (by simpa using hk)
  have h := (ringInv_calls C sizeof_payload hC hes _ _ 0 0 [] (ringInv_init C sizeof_payload junk)
    (by omega) hf).1
  have hw := writesOf_writes ((List.range k).map (fill_nth junk net))
  rw [hw.1, hw.2] at h
  simp only [Nat.zero_add, List.length_map, List.length_range, List.nil_append] at h
  show RingInv C sizeof_payload (cbCalls _ _) k 0 _
  rw [hmap]
  exact h

theorem ring_get {C : Nat} {c : cb payload} {n a : Nat} {ws : List payload}
    (h : RingInv C sizeof_payload c n a ws) (i : Nat) (hi : i < n) (hn : n ≤ C) :
    c.elems[i]? = ws[i]? := by
  have := h.hdata i hi (by omega)
  rwa [Nat.mod_eq_of_lt (by omega)] at this

theorem slot_mul (c : cb payload) (i : Nat) (hes : c.elem_size = sizeof_payload) :
    c.slot (i * sizeof_payload) = i := by
  unfold cb.slot
  rw [hes]
  exact Nat.mul_div_cancel i (by decide)
/-- A worker step leaves the listener and the count of stored payloads alone. -/
theorem wstep_frame (N : Nat) (s s1 : State) (w : Nat) (hs : relay_thread_step N s w = some s1) :
    s1.stored = s.stored ∧ s1.listener = s.listener := by
  unfold relay_thread_step at hs
  split at hs
  · cases hs
  all_goals first
    | (cases hs; exact ⟨rfl, rfl⟩)
    | (split at hs <;> first
        | (cases hs; done)
        | (cases hs; exact ⟨rfl, rfl⟩))
    | cases hs

/-- Before the first cycle has completed no worker step posts `empty_buff`. -/
theorem wstep_flow (N C : Nat) (s s1 : State) (w : Nat) (k : Nat)
    (hflow : s.cycles = 0 → s.empty_buff + k = C)
    (hnone : s.cycles = 0 → s.workers.count .leave_reset + s.workers.count .post_empty = 0)
    (hs : relay_thread_step N s w = some s1) :
    (s1.cycles = 0 → s1.empty_buff + k = C)
    ∧ (s1.cycles = 0 → s1.workers.count .leave_reset + s1.workers.count .post_empty = 0) := by
  unfold relay_thread_step at hs
  split at hs
  · cases hs
  · -- wait_full
    next hw =>
    have hp := count_pos_of_get _ _ _ hw
    split at hs
    ·
      cases hs
      refine ⟨?_, ?_⟩ <;>
        simp only [count_set_get _ _ _ _ _ hw, reduceCtorEq, if_true, if_false, Nat.add_zero,
        Nat.sub_zero] <;>
        omega
    · cases hs
  · -- lock_enter
    next hw =>
    have hp := count_pos_of_get _ _ _ hw
    split at hs
    · cases hs
    ·
      cases hs
      refine ⟨?_, ?_⟩ <;>
        simp only [count_set_get _ _ _ _ _ hw, reduceCtorEq, if_true, if_false, Nat.add_zero,
        Nat.sub_zero] <;>
        omega
  · -- enter_test
    next hw =>
    have hp := count_pos_of_get _ _ _ hw
    split at hs
    ·
      cases hs
      refine ⟨?_, ?_⟩ <;>
        simp only [count_set_get _ _ _ _ _ hw, reduceCtorEq, if_true, if_false, Nat.add_zero,
        Nat.sub_zero] <;>
        omega
    ·
      cases hs
      refine ⟨?_, ?_⟩ <;>
        simp only [count_set_get _ _ _ _ _ hw, reduceCtorEq, if_true, if_false, Nat.add_zero,
        Nat.sub_zero] <;>
        omega
  · -- enter_unlock
    next hw =>
    have hp := count_pos_of_get _ _ _ hw
    cases hs
    refine ⟨?_, ?_⟩ <;>
      simp only [count_set_get _ _ _ _ _ hw, reduceCtorEq, if_true, if_false, Nat.add_zero,
        Nat.sub_zero] <;>
      omega
  · -- enter_check
    next hw =>
    have hp := count_pos_of_get _ _ _ hw
    split at hs
    ·
      cases hs
      refine ⟨?_, ?_⟩ <;>
        simp only [count_set_get _ _ _ _ _ hw, reduceCtorEq, if_true, if_false, Nat.add_zero,
        Nat.sub_zero] <;>
        omega
    ·
      cases hs
      refine ⟨?_, ?_⟩ <;>
        simp only [count_set_get _ _ _ _ _ hw, reduceCtorEq, if_true, if_false, Nat.add_zero,
        Nat.sub_zero] <;>
        omega
  · -- enter_post
    next hw =>
    have hp := count_pos_of_get _ _ _ hw
    cases hs
    refine ⟨?_, ?_⟩ <;>
      simp only [count_set_get _ _ _ _ _ hw, reduceCtorEq, if_true, if_false, Nat.add_zero,
        Nat.sub_zero] <;>
      omega
  · -- enter_barrier
    next hw =>
    have hp := count_pos_of_get _ _ _ hw
    split at hs
    · cases hs
      refine ⟨?_, ?_⟩ <;>
        simp only [count_release WPc.enter_blocked WPc.enter_reset _ (by decide), count_set_get _ _ _ _ _ hw,
        reduceCtorEq, if_true, if_false, Nat.add_zero, Nat.sub_zero] <;>
        omega
    ·
      cases hs
      refine ⟨?_, ?_⟩ <;>
        simp only [count_set_get _ _ _ _ _ hw, reduceCtorEq, if_true, if_false, Nat.add_zero,
        Nat.sub_zero] <;>
        omega
  · cases hs
  · -- enter_reset
    next hw =>
    have hp := count_pos_of_get _ _ _ hw
    cases hs
    refine ⟨?_, ?_⟩ <;>
      simp only [count_set_get _ _ _ _ _ hw, reduceCtorEq, if_true, if_false, Nat.add_zero,
        Nat.sub_zero] <;>
      omega
  · -- relay
    next hw =>
    have hp := count_pos_of_get _ _ _ hw
    split at hs
    · cases hs
    ·
      cases hs
      refine ⟨?_, ?_⟩ <;>
        simp only [count_set_get _ _ _ _ _ hw, reduceCtorEq, if_true, if_false, Nat.add_zero,
        Nat.sub_zero] <;>
        omega
  · -- lock_leave
    next hw =>
    have hp := count_pos_of_get _ _ _ hw
    split at hs
    · cases hs
    ·
      cases hs
      refine ⟨?_, ?_⟩ <;>
        simp only [count_set_get _ _ _ _ _ hw, reduceCtorEq, if_true, if_false, Nat.add_zero,
        Nat.sub_zero] <;>
        omega
  · -- leave_inc
    next hw =>
    have hp := count_pos_of_get _ _ _ hw
    cases hs
    refine ⟨?_, ?_⟩ <;>
      simp only [count_set_get _ _ _ _ _ hw, reduceCtorEq, if_true, if_false, Nat.add_zero,
        Nat.sub_zero] <;>
      omega
  · -- leave_test
    next hw =>
    have hp := count_pos_of_get _ _ _ hw
    split at hs
    ·
      cases hs
      refine ⟨?_, ?_⟩ <;>
        simp only [count_set_get _ _ _ _ _ hw, reduceCtorEq, if_true, if_false, Nat.add_zero,
        Nat.sub_zero] <;>
        omega
    ·
      cases hs
      refine ⟨?_, ?_⟩ <;>
        simp only [count_set_get _ _ _ _ _ hw, reduceCtorEq, if_true, if_false, Nat.add_zero,
        Nat.sub_zero] <;>
        omega
  · -- leave_unlock
    next hw =>
    have hp := count_pos_of_get _ _ _ hw
    cases hs
    refine ⟨?_, ?_⟩ <;>
      simp only [count_set_get _ _ _ _ _ hw, reduceCtorEq, if_true, if_false, Nat.add_zero,
        Nat.sub_zero] <;>
      omega
  · -- leave_barrier
    next hw =>
    have hp := count_pos_of_get _ _ _ hw
    split at hs
    · cases hs
      refine ⟨?_, ?_⟩ <;> (intro h0; simp at h0)
    ·
      cases hs
      refine ⟨?_, ?_⟩ <;>
        simp only [count_set_get _ _ _ _ _ hw, reduceCtorEq, if_true, if_false, Nat.add_zero,
        Nat.sub_zero] <;>
        omega
  · cases hs
  · -- leave_reset
    next hw =>
    have hp := count_pos_of_get _ _ _ hw
    cases hs
    refine ⟨?_, ?_⟩ <;>
      simp only [count_set_get _ _ _ _ _ hw, reduceCtorEq, if_true, if_false, Nat.add_zero,
        Nat.sub_zero] <;>
      omega
  · -- post_empty
    next hw =>
    have hp := count_pos_of_get _ _ _ hw
    cases hs
    refine ⟨?_, ?_⟩ <;>
      simp only [count_set_get _ _ _ _ _ hw, reduceCtorEq, if_true, if_false, Nat.add_zero,
        Nat.sub_zero] <;>
      omega

theorem FInv_wstep (N C : Nat) (hC : 1 ≤ C) (s s1 : State) (w : Nat) (h : FInv C s)
    (hs : relay_thread_step N s w = some s1) : FInv C s1 := by
  obtain ⟨⟨ws, hring⟩, hflow, hnone⟩ := h
  obtain ⟨hst, hli⟩ := wstep_frame N s s1 w hs
  have hf := wstep_flow N C s s1 w (s.stored + writing s.listener.pc)
    (by intro h0; have := hflow h0; omega) hnone hs
  refine ⟨?_, ?_, hf.2⟩
  · rcases wstep_moves N s s1 w hs with ⟨hm, hc⟩ | ⟨-, -, hm, hc⟩
    · exact ⟨ws, by rw [hm, hc, hst]; exact hring⟩
    · exact ⟨ws, by
        rw [hm, hc, hst]
        exact ringInv_move_rptr C sizeof_payload hC (by decide) _ _ _ _ hring⟩
  · intro h0
    have := hf.1 h0
    rw [hst, hli]
    omega

theorem FInv_lstep (C : Nat) (hC : 1 ≤ C) (s s1 : State) (h : FInv C s)
    (hs : udp_listener_step s = some s1) : FInv C s1 := by
  obtain ⟨⟨ws, hring⟩, hflow, hnone⟩ := h
  obtain ⟨hwk, -, -, -, -, -, hmv, hcy⟩ := lstep_frame s s1 hs
  unfold udp_listener_step at hs
  split at hs
  · next hpc =>
    rw [hpc] at hflow
    split at hs
    · cases hs
    · split at hs <;> cases hs
      · exact ⟨⟨ws, hring⟩, by simpa [hpc] using hflow, hnone⟩
      · exact ⟨⟨ws, hring⟩, by simpa [writing] using hflow, hnone⟩
  · next hpc =>
    rw [hpc] at hflow
    split at hs
    · cases hs
      refine ⟨⟨ws, hring⟩, ?_, hnone⟩
      intro h0
      have := hflow h0
      simp only [writing] at this ⊢
      omega
    · cases hs
  · next hpc =>
    rw [hpc] at hflow
    cases hs
    refine ⟨⟨ws ++ [s.listener.p],
      (ringInv_write C sizeof_payload hC (by decide) _ _ _ _ _ hring).1⟩, ?_, hnone⟩
    intro h0
    have := hflow h0
    simp only [writing] at this ⊢
    omega
  · next hpc =>
    rw [hpc] at hflow
    cases hs
    exact ⟨⟨ws, hring⟩, by simpa [writing] using hflow, hnone⟩

theorem FInv_init (N C : Nat) (junk : payload) (net : List Recv) :
    FInv C (init N C junk net) := by
  refine ⟨⟨[], ringInv_init C sizeof_payload junk⟩, ?_, ?_⟩
  · intro _; simp [init, writing]
  · intro _; simp [init, List.count_replicate]

theorem FInv_run (N C : Nat) (hC : 1 ≤ C) (sched : List Tid) :
    ∀ (s s1 : State), FInv C s → run N s sched = some s1 → FInv C s1 := by
  induction sched with
  | nil => intro s s1 h hr; simp only [run] at hr; cases hr; exact h
  | cons t ts ih =>
    intro s s1 h hr
    simp only [run] at hr
    cases hst : step N s t with
    | none => rw [hst] at hr; cases hr
    | some s2 =>
      rw [hst] at hr
      refine ih s2 s1 ?_ hr
      cases t with
      | listener => exact FInv_lstep C hC s s2 h hst
      | relay w => exact FInv_wstep N C hC s s2 w h hst
theorem LInv_sent (N : Nat) (s : State) (h : LInv N s) (w : Nat) (l : List (List Nat))
    (hl : s.sent[w]? = some l) :
    ∃ pc, s.workers[w]? = some pc ∧ l.length = s.cycles + relayed pc := by
  have hlt : w < s.workers.length := by
    rw [h.hlen, ← h.hsent]; exact (List.getElem?_eq_some_iff.mp hl).1
  refine ⟨s.workers[w], List.getElem?_eq_getElem hlt, ?_⟩
  obtain ⟨x, hx, hxl⟩ := h.hrel w _ (List.getElem?_eq_getElem hlt)
  rw [hl] at hx
  cases hx
  exact hxl

/-- The workers run one full cycle from `pending`, then the listener resumes. -/
theorem run_cycle (N C : Nat) (junk : payload) (net : List Recv) (hC : 2 ≤ C) (hN : 1 ≤ N) :
    run N (pending N C junk net) (cycle_sched N) = some (cycled N C junk net)
    ∧ run N (cycled N C junk net) (rep 2 .listener) = some (resumed N C junk net) := by
  have hring := ring_filled N C junk net C (by omega) (Nat.le_refl C)
  have hN1 : N - 1 + 1 = N := by omega
  have hslot : (entered N C junk net).cbuff.elems[(entered N C junk net).cbuff.slot
      (entered N C junk net).cbuff.r_ptr]? = some (fill_nth junk net 0) := by
    show (filled N C junk net C).cbuff.elems[(filled N C junk net C).cbuff.slot
      (filled N C junk net C).cbuff.r_ptr]? = some (fill_nth junk net 0)
    rw [hring.hr, Nat.zero_mod, slot_mul _ 0 hring.hes, ring_get hring 0 (by omega) (Nat.le_refl C)]
    simp [List.getElem?_range, show 0 < C by omega]
  have h1 : run N (pending N C junk net) (enter_sched 0 (N - 1)) = some (entered N C junk net) := by
    refine (enter_phase N (N - 1) 0 (pending N C junk net) (by omega)
      (by simp [pending, filled, hN1]) (by simp [pending, filled]; omega) rfl rfl rfl).trans ?_
    simp [entered, pending, filled]
  have h2 : run N (entered N C junk net) (leave_sched 0 (N - 1)) = some (left N C junk net) := by
    refine (leave_phase N (fill_nth junk net 0) (N - 1) 0 (entered N C junk net) (by omega)
      (by simp [entered, hN1]) (by simp [entered, pending, filled, hN1]) hslot rfl rfl rfl).trans ?_
    simp [left, entered, pending, filled]
  have h3 : run N (left N C junk net) (post_sched 0 N) = some (cycled N C junk net) := by
    refine (post_phase N N 0 (left N C junk net) (by omega) (by simp [left])).trans ?_
    simp [cycled, left, entered, pending, filled]
  constructor
  · unfold cycle_sched
    rw [List.append_assoc, run_append N _ _ _ _ h1, run_append N _ _ _ _ h2, h3]
  · have hrep : rep 2 Tid.listener = [.listener, .listener] := rfl
    have hpos : 0 < N := hN
    simp only [hrep, run, step, udp_listener_step, cycled, left, entered, pending, hpos, if_true, resumed, filled]
/-- C6. Capacity `C ≥ 2`, `N ≥ 1` workers, at least `C + 1` non-empty datagrams.
With no worker step taken the listener's `k`-th write (`k ≤ C`) lands in slot
`k - 1`; after `C` writes and one more receive it sits at
`sem_wait(&empty_buff)` with `empty_buff = 0` and cannot move.  From there the
workers can run one full cycle, in which each relays the payload of slot 0 and
the read cursor goes to slot 1; then the listener's blocked write goes through
and lands in slot 0.  And in every execution: more than `C` payloads are stored
only after a cycle has completed and every worker has relayed; the read cursor
is at slot `moves mod C` and the last write is in slot `(stored - 1) mod C`. -/
theorem capacity_scenario (N C : Nat) (junk : payload) (net : List Recv)
    (hC : 2 ≤ C) (hN : 1 ≤ N) (hlen : C + 1 ≤ net.length)
    (hnz : ∀ r ∈ net, r.received ≠ 0) :
    (∀ k, 1 ≤ k → k ≤ C →
      ∃ s, run N (init N C junk net) (rep (4 * k) .listener) = some s
        ∧ s.stored = k ∧ s.cbuff.slot s.cbuff.w_ptr = k - 1
        ∧ s.cbuff.elems[k - 1]? = some (fill_nth junk net (k - 1))
        ∧ s.cbuff.slot s.cbuff.r_ptr = 0 ∧ s.empty_buff = C - k
        ∧ s.workers = List.replicate N WPc.wait_full)
    ∧ (run N (init N C junk net) (rep (4 * C + 1) .listener) = some (pending N C junk net)
        ∧ (pending N C junk net).stored = C ∧ (pending N C junk net).empty_buff = 0
        ∧ (pending N C junk net).listener.pc = LPc.wait_empty
        ∧ (pending N C junk net).listener.p = fill_nth junk net C
        ∧ step N (pending N C junk net) .listener = none
        ∧ ∀ i, i < C → (pending N C junk net).cbuff.elems[i]? = some (fill_nth junk net i))
    ∧ (run N (pending N C junk net) (cycle_sched N) = some (cycled N C junk net)
        ∧ (cycled N C junk net).sent = List.replicate N [relay_payload (fill_nth junk net 0)]
        ∧ (cycled N C junk net).moves = 1 ∧ (cycled N C junk net).stored = C
        ∧ (cycled N C junk net).workers = List.replicate N WPc.wait_full
        ∧ (cycled N C junk net).cbuff.slot (cycled N C junk net).cbuff.r_ptr = 1)
    ∧ (run N (cycled N C junk net) (rep 2 .listener) = some (resumed N C junk net)
        ∧ (resumed N C junk net).stored = C + 1
        ∧ (resumed N C junk net).cbuff.slot (resumed N C junk net).cbuff.w_ptr = 0
        ∧ (resumed N C junk net).cbuff.elems[0]? = some (fill_nth junk net C)
        ∧ (resumed N C junk net).cbuff.slot (resumed N C junk net).cbuff.r_ptr = 1)
    ∧ (∀ s, Reachable N C junk net s →
        (C < s.stored → 1 ≤ s.cycles
          ∧ ∀ (w : Nat) (l : List (List Nat)), s.sent[w]? = some l → 1 ≤ l.length)
        ∧ s.cbuff.slot s.cbuff.r_ptr = s.moves % C
        ∧ (0 < s.stored → s.cbuff.slot s.cbuff.w_ptr = (s.stored - 1) % C)) := by
  have hC1 : 1 ≤ C := by omega
  have hes : 0 < sizeof_payload := by decide
  have hringC := ring_filled N C junk net C hC1 (Nat.le_refl C)
  have hmoved := ringInv_move_rptr C sizeof_payload hC1 hes _ _ _ _ hringC
  have hwrote := ringInv_write C sizeof_payload hC1 hes _ _ _ _ (fill_nth junk net C) hmoved
  have hcyc := run_cycle N C junk net hC hN
  refine ⟨?_, ⟨?_, rfl, by simp [pending, filled], rfl, rfl, ?_, ?_⟩,
    ⟨hcyc.1, rfl, rfl, rfl, rfl, ?_⟩, ⟨hcyc.2, rfl, ?_, ?_, ?_⟩, ?_⟩
  · intro k hk1 hkC
    have hring := ring_filled N C junk net k hC1 hkC
    refine ⟨filled N C junk net k, run_filled N C junk net hnz k hkC (by omega), rfl, ?_, ?_, ?_,
      rfl, rfl⟩
    · rw [(hring.hw1 (by omega)).2, Nat.mod_eq_of_lt (by omega), slot_mul _ _ hring.hes]
    · rw [ring_get hring (k - 1) (by omega) hkC]
      simp [List.getElem?_range, show k - 1 < k by omega]
    · rw [hring.hr, Nat.zero_mod, slot_mul _ 0 hring.hes]
  · have h1 := run_filled N C junk net hnz C (Nat.le_refl C) (by omega)
    have hrep : rep 1 Tid.listener = [.listener] := rfl
    rw [rep_add, run_append N _ _ _ _ h1, hrep]
    exact (run_pending N C junk net (by omega)
      (hnz _ (List.getElem_mem (by omega)))).1
  · exact (run_pending N C junk net (by omega) (hnz _ (List.getElem_mem (by omega)))).2
  · intro i hi
    show (filled N C junk net C).cbuff.elems[i]? = _
    rw [ring_get hringC i hi (Nat.le_refl C)]
    simp [List.getElem?_range, hi]
  · show (cb_move_rptr (filled N C junk net C).cbuff).slot
      (cb_move_rptr (filled N C junk net C).cbuff).r_ptr = 1
    rw [hmoved.hr, Nat.mod_eq_of_lt (by omega), slot_mul _ 1 hmoved.hes]
  · show (cb_write_elem _ _).slot (cb_write_elem _ _).w_ptr = 0
    rw [hwrote.2.1, Nat.mod_self, slot_mul _ 0 hwrote.1.hes]
  · have := hwrote.2.2
    rw [Nat.mod_self] at this
    exact this
  · show (cb_write_elem _ _).slot (cb_write_elem _ _).r_ptr = 1
    rw [hwrote.1.hr, Nat.mod_eq_of_lt (by omega), slot_mul _ 1 hwrote.1.hes]
  · intro s hr
    have hL := LInv_reachable N C junk net s hN hr
    obtain ⟨sched, hs⟩ := hr
    obtain ⟨⟨ws, hring⟩, hflow, -⟩ := FInv_run N C hC1 sched _ s (FInv_init N C junk net) hs
    refine ⟨?_, ?_, ?_⟩
    · intro hst
      have hcy : 1 ≤ s.cycles := by
        rcases Nat.eq_zero_or_pos s.cycles with h0 | h0
        · have := hflow h0; omega
        · exact h0
      refine ⟨hcy, ?_⟩
      intro w l hl
      obtain ⟨pc, -, hxl⟩ := LInv_sent N s hL w l hl
      omega
    · rw [hring.hr, slot_mul _ _ hring.hes]
    · intro hpos
      rw [(hring.hw1 hpos).2, slot_mul _ _ hring.hes]

theorem capacity_scenario_witness :
    (2 ≤ 2 ∧ 1 ≤ 2 ∧ 2 + 1 ≤ [dg 88, dg 89, dg 90].length
      ∧ ∀ r ∈ [dg 88, dg 89, dg 90], r.received ≠ 0)
    ∧ run 2 (pending 2 2 zero_payload [dg 88, dg 89, dg 90]) (cycle_sched 2)
        = some (cycled 2 2 zero_payload [dg 88, dg 89, dg 90])
    ∧ (cycled 2 2 zero_payload [dg 88, dg 89, dg 90]).sent
        = List.replicate 2 [relay_payload (fill_nth zero_payload [dg 88, dg 89, dg 90] 0)]
    ∧ (resumed 2 2 zero_payload [dg 88, dg 89, dg 90]).cbuff.elems[0]?
        = some (fill_nth zero_payload [dg 88, dg 89, dg 90] 2)
    ∧ relay_payload (fill_nth zero_payload [dg 88, dg 89, dg 90] 0) = [88]
    ∧ relay_payload (fill_nth zero_payload [dg 88, dg 89, dg 90] 2) = [90] :=
  have hnz : ∀ r ∈ [dg 88, dg 89, dg 90], r.received ≠ 0 := by decide
  have h := capacity_scenario 2 2 zero_payload [dg 88, dg 89, dg 90] (by decide) (by decide)
    (by decide) hnz
  ⟨⟨by decide, by decide, by decide, hnz⟩, h.2.2.1.1, h.2.2.1.2.1, h.2.2.2.1.2.2.2.1,
    by decide!, by decide!⟩
end Udpr
